import Mathlib

/-!
Verification of the rust-thanos region-file codec and chunk-selection
pipeline.  Byte strings are modelled as `List Nat` (each element a byte
value); machine integers are `Nat`/`Int` with explicit `% 2^w` where the
source truncates.  Fallible operations return `Option`.
-/

/-- Big-endian 32-bit read at `pos` (u32::from_be_bytes over 4 bytes). -/
def readU32BE (data : List Nat) (pos : Nat) : Nat :=
  data.getD pos 0 * 16777216 + data.getD (pos + 1) 0 * 65536 +
    data.getD (pos + 2) 0 * 256 + data.getD (pos + 3) 0

/-- Little-endian 32-bit read at `pos` (LittleEndian::read_u32). -/
def readU32LE (data : List Nat) (pos : Nat) : Nat :=
  data.getD pos 0 + data.getD (pos + 1) 0 * 256 +
    data.getD (pos + 2) 0 * 65536 + data.getD (pos + 3) 0 * 16777216

/-- Big-endian 64-bit unsigned read at `pos`. -/
def readU64BE (data : List Nat) (pos : Nat) : Nat :=
  readU32BE data pos * 4294967296 + readU32BE data (pos + 4)

/-- Big-endian signed 64-bit read (BigEndian::read_i64): two's complement. -/
def readI64BE (data : List Nat) (pos : Nat) : Int :=
  let u := readU64BE data pos
  if u < 9223372036854775808 then (u : Int) else (u : Int) - 18446744073709551616

/-- The 4 big-endian bytes of `v` (u32::to_be_bytes). -/
def be32Bytes (v : Nat) : List Nat :=
  [v / 16777216 % 256, v / 65536 % 256, v / 256 % 256, v % 256]

/-- The 4 little-endian bytes of `v` (LittleEndian::write_u32). -/
def le32Bytes (v : Nat) : List Nat :=
  [v % 256, v / 256 % 256, v / 65536 % 256, v / 16777216 % 256]

/-- The 8 big-endian bytes of the two's-complement encoding of an i64. -/
def be64BytesOfInt (v : Int) : List Nat :=
  let u := (v % 18446744073709551616).toNat
  [u / 72057594037927936 % 256, u / 281474976710656 % 256,
   u / 1099511627776 % 256, u / 4294967296 % 256,
   u / 16777216 % 256, u / 65536 % 256, u / 256 % 256, u % 256]

/-- Compression methods of src/mca/entry.rs. -/
inductive CompressionMethod where
  | gzip | zlib | raw | lz4 | custom
  | externalGzip | externalZlib | externalRaw | externalLz4
deriving DecidableEq, Repr

/-- Decoding of the method byte (`buf[4] as i8` matched against the signed
codes; 129..132 are the unsigned forms of -127..-124). -/
def methodOfByte (b : Nat) : Option CompressionMethod :=
  if b = 1 then some CompressionMethod.gzip
  else if b = 2 then some CompressionMethod.zlib
  else if b = 3 then some CompressionMethod.raw
  else if b = 4 then some CompressionMethod.lz4
  else if b = 127 then some CompressionMethod.custom
  else if b = 129 then some CompressionMethod.externalGzip
  else if b = 130 then some CompressionMethod.externalZlib
  else if b = 131 then some CompressionMethod.externalRaw
  else if b = 132 then some CompressionMethod.externalLz4
  else none

/-- `McaEntry` (src/mca/entry.rs): a handle into the bytes of one region
file.  The `File` handle is modelled by carrying the file's bytes. -/
structure McaEntry where
  data : List Nat
  start : Nat
  length : Nat
  index : Nat
  modified : Nat
  region_x : Int
  region_z : Int
deriving DecidableEq, Repr

def McaEntry.x_pos (e : McaEntry) : Int := (e.index % 32 : Nat)

def McaEntry.z_pos (e : McaEntry) : Int := (e.index / 32 : Nat)

def McaEntry.global_x (e : McaEntry) : Int := e.region_x * 32 + e.x_pos

def McaEntry.global_z (e : McaEntry) : Int := e.region_z * 32 + e.z_pos

/-- `McaEntry::read_header`: seek to `start`, read 5 bytes (fails when the
file is too short, as `read_exact` does), decode length and method; a
custom method additionally reads a 2-byte name length and the name. -/
def McaEntry.read_header (e : McaEntry) :
    Option (Nat × CompressionMethod × Option (List Nat)) :=
  if e.start + 5 ≤ e.data.length then
    let len := readU32BE e.data e.start
    match methodOfByte (e.data.getD (e.start + 4) 0) with
    | none => none
    | some cm =>
      if cm = CompressionMethod.custom then
        if e.start + 7 ≤ e.data.length then
          let n := e.data.getD (e.start + 5) 0 * 256 + e.data.getD (e.start + 6) 0
          if e.start + 7 + n ≤ e.data.length then
            some (len, cm, some ((e.data.drop (e.start + 7)).take n))
          else none
        else none
      else some (len, cm, none)
  else none

/-- `McaEntry::serialized_bytes`: the exact `4 + L` bytes beginning at
`start` (a `Read::take` reads at most that many, without failing when the
file ends early). -/
def McaEntry.serialized_bytes (e : McaEntry) : Option (List Nat) :=
  match e.read_header with
  | none => none
  | some h => some ((e.data.drop e.start).take (4 + h.1))

/-- A UTF-8 continuation byte (`0x80..=0xBF`). -/
def utf8Cont (b : Nat) : Bool := decide (128 ≤ b ∧ b ≤ 191)

/-- Valid second byte of a 3- or 4-byte UTF-8 sequence starting with
`b0` (the table of `core::str`'s UTF-8 validation). -/
def utf8Valid2 (b0 b1 : Nat) : Bool :=
  if b0 = 224 then decide (160 ≤ b1 ∧ b1 ≤ 191)
  else if b0 = 237 then decide (128 ≤ b1 ∧ b1 ≤ 159)
  else if b0 = 240 then decide (144 ≤ b1 ∧ b1 ≤ 191)
  else if b0 = 244 then decide (128 ≤ b1 ∧ b1 ≤ 143)
  else utf8Cont b1

/-- Byte length of `String::from_utf8_lossy` of the bytes: a valid UTF-8
sequence keeps its byte length, and each maximal invalid subpart — or the
incomplete sequence at the end — is replaced by U+FFFD (3 bytes).
Structural fuel: the cursor advances by at least 1 each iteration; the
entry point passes `len + 1`. -/
def utf8LossyGo (data : List Nat) : Nat → Nat → Nat → Nat
  | 0, _, acc => acc
  | fuel + 1, i, acc =>
    if i < data.length then
      let b0 := data.getD i 0
      if b0 ≤ 127 then utf8LossyGo data fuel (i + 1) (acc + 1)
      else if 194 ≤ b0 ∧ b0 ≤ 223 then
        if i + 1 < data.length then
          if utf8Cont (data.getD (i + 1) 0) then utf8LossyGo data fuel (i + 2) (acc + 2)
          else utf8LossyGo data fuel (i + 1) (acc + 3)
        else acc + 3
      else if 224 ≤ b0 ∧ b0 ≤ 239 then
        if i + 1 < data.length then
          if utf8Valid2 b0 (data.getD (i + 1) 0) then
            if i + 2 < data.length then
              if utf8Cont (data.getD (i + 2) 0) then utf8LossyGo data fuel (i + 3) (acc + 3)
              else utf8LossyGo data fuel (i + 2) (acc + 3)
            else acc + 3
          else utf8LossyGo data fuel (i + 1) (acc + 3)
        else acc + 3
      else if 240 ≤ b0 ∧ b0 ≤ 244 then
        if i + 1 < data.length then
          if utf8Valid2 b0 (data.getD (i + 1) 0) then
            if i + 2 < data.length then
              if utf8Cont (data.getD (i + 2) 0) then
                if i + 3 < data.length then
                  if utf8Cont (data.getD (i + 3) 0) then
                    utf8LossyGo data fuel (i + 4) (acc + 4)
                  else utf8LossyGo data fuel (i + 3) (acc + 3)
                else acc + 3
              else utf8LossyGo data fuel (i + 2) (acc + 3)
            else acc + 3
          else utf8LossyGo data fuel (i + 1) (acc + 3)
        else acc + 3
      else utf8LossyGo data fuel (i + 1) (acc + 3)
    else acc

def utf8LossyLen (bytes : List Nat) : Nat :=
  utf8LossyGo bytes (bytes.length + 1) 0 0

/-- `McaEntry::data_bytes`: after `read_header` the file cursor already
sits past the custom name, so for a custom method the source reads a
*second* 2-byte length `n2` and `n2` name bytes from there with
`read_exact` (failing near EOL of the file), then seeks to
`start + 5 + 2 + n2` and takes `len - 1 - (2 + |custom|)` payload bytes,
where `|custom|` is the byte length of the lossy-UTF-8 string built from
the *first* name (usize subtraction; `len` covers the header in
well-formed slots).  Non-custom methods take `len - 1` bytes from
`start + 5`. -/
def McaEntry.data_bytes (e : McaEntry) :
    Option (CompressionMethod × List Nat × Option (List Nat)) :=
  match e.read_header with
  | none => none
  | some (len, cm, custom) =>
    if cm = CompressionMethod.custom then
      let cur := e.start + 7 + (custom.getD []).length
      if cur + 2 ≤ e.data.length then
        let n2 := e.data.getD cur 0 * 256 + e.data.getD (cur + 1) 0
        if cur + 2 + n2 ≤ e.data.length then
          let dataLen := len - 1 - (2 + utf8LossyLen (custom.getD []))
          some (cm, (e.data.drop (e.start + 7 + n2)).take dataLen, custom)
        else none
      else none
    else
      some (cm, (e.data.drop (e.start + 5)).take (len - 1), custom)

/-- `McaEntry::is_external`. -/
def McaEntry.is_external (e : McaEntry) : Option Bool :=
  match e.read_header with
  | none => none
  | some h =>
    some (decide (h.2.1 = CompressionMethod.externalGzip ∨
          h.2.1 = CompressionMethod.externalZlib ∨
          h.2.1 = CompressionMethod.externalRaw ∨
          h.2.1 = CompressionMethod.externalLz4))

/-! ## Region reader (src/mca/reader.rs) -/

/-- Decoded byte offset of slot `i`: `(v >> 8) * 4096` (`>> 8` is `/ 256`). -/
def readLocOff (file : List Nat) (i : Nat) : Nat :=
  readU32BE file (i * 4) / 256 * 4096

/-- Decoded byte size of slot `i`: `(v & 0xFF) * 4096` (`& 0xFF` is `% 256`). -/
def readLocSize (file : List Nat) (i : Nat) : Nat :=
  readU32BE file (i * 4) % 256 * 4096

/-- Timestamp word of slot `i` (second 4096-byte table). -/
def readTimestamp (file : List Nat) (i : Nat) : Nat :=
  readU32BE file (4096 + i * 4)

/-- Slot `i` of a region file is populated: decoded offset and size both
non-zero (the reader skips a slot when `off == 0 || size == 0`). -/
def slotNonEmpty (file : List Nat) (i : Nat) : Prop :=
  readLocOff file i ≠ 0 ∧ readLocSize file i ≠ 0

instance (file : List Nat) (i : Nat) : Decidable (slotNonEmpty file i) := by
  unfold slotNonEmpty; infer_instance

/-- `McaReader::entries`: parse the two header tables (fails like
`read_exact` when the file is shorter than 8192 bytes) and return the
populated slots in slot-index order. -/
def McaReader.entries (file : List Nat) (rx rz : Int) : Option (List McaEntry) :=
  if 8192 ≤ file.length then
    some ((List.range 1024).filterMap (fun i =>
      let off := readLocOff file i
      let size := readLocSize file i
      if off = 0 ∨ size = 0 then none
      else some ⟨file, off, size, i, readTimestamp file i, rx, rz⟩))
  else none

/-- Outcome of `McaReader::get`: header-parse failure (`Err`), an
out-of-bounds `Vec` index (a Rust panic), or `Ok(...)`. -/
inductive GetResult where
  | ioErr
  | panics
  | ok (e : Option McaEntry)
deriving DecidableEq, Repr

/-- `McaReader::get`: ensure the header is parsed (Err on a short file),
then index the 1024-element tables (panics for `index ≥ 1024`), and
return `None` when the decoded offset or size is zero. -/
def McaReader.get (file : List Nat) (rx rz : Int) (index : Nat) : GetResult :=
  if 8192 ≤ file.length then
    if index < 1024 then
      let off := readLocOff file index
      let size := readLocSize file index
      if off = 0 ∨ size = 0 then GetResult.ok none
      else GetResult.ok (some ⟨file, off, size, index, readTimestamp file index, rx, rz⟩)
    else GetResult.panics
  else GetResult.ioErr

/-! ## Region writer (src/mca/writer.rs) -/

/-- `seek(SeekFrom::Start pos)` followed by `write_all bytes` on a file
whose contents are `file` (zero-filled if the seek is past the end). -/
def writeAt (file : List Nat) (pos : Nat) (bytes : List Nat) : List Nat :=
  file.take pos ++ List.replicate (pos - file.length) 0 ++ bytes ++
    file.drop (pos + bytes.length)

/-- Zero padding to the next 4096-byte boundary. -/
def padOf (written : Nat) : Nat := (4096 - written % 4096) % 4096

structure McaWriter where
  file : List Nat
  data_offset : Nat
  offsets : List Nat
  sizes : List Nat
  timestamps : List Nat
deriving Repr

/-- `McaWriter::open`: create the file and write 8192 zero bytes. -/
def McaWriter.openW : McaWriter :=
  ⟨List.replicate 8192 0, 8192, List.replicate 1024 0,
   List.replicate 1024 0, List.replicate 1024 0⟩

/-- `McaWriter::write_entry`: copy `serialized_bytes` to the data cursor,
pad with zeros to the next sector boundary, record offset/size (stored in
`u32`, hence `% 2^32`) and timestamp.  `None` when `serialized_bytes`
fails (the caller logs and continues). -/
def McaWriter.write_entry (w : McaWriter) (e : McaEntry) : Option McaWriter :=
  match e.serialized_bytes with
  | none => none
  | some serialized =>
    let start := w.data_offset
    let written := serialized.length
    let pad := padOf written
    let file1 := writeAt w.file start serialized
    let file2 := writeAt file1 (start + written) (List.replicate pad 0)
    some { file := file2
           data_offset := start + written + pad
           offsets := w.offsets.set e.index (start % 4294967296)
           sizes := w.sizes.set e.index ((written + pad) % 4294967296)
           timestamps := w.timestamps.set e.index e.modified }

/-- Location word of slot `i` as built by `finalize`:
`(off << 8) | (size & 0xFF)` with `off = offsets[i] / 4096`,
`size = sizes[i] / 4096` (the `|` is `+` since the low byte is disjoint). -/
def locWord (w : McaWriter) (i : Nat) : Nat :=
  w.offsets.getD i 0 / 4096 * 256 + w.sizes.getD i 0 / 4096 % 256

/-- The 4096-byte location table written by `finalize`. -/
def locBytes (w : McaWriter) : List Nat :=
  ((List.range 1024).map (fun i => be32Bytes (locWord w i))).flatten

/-- The 4096-byte timestamp table written by `finalize`. -/
def timeBytes (w : McaWriter) : List Nat :=
  ((List.range 1024).map (fun i => be32Bytes (w.timestamps.getD i 0))).flatten

/-- `McaWriter::finalize`: seek to 0 and write both header tables. -/
def McaWriter.finalize (w : McaWriter) : McaWriter :=
  { w with file := writeAt (writeAt w.file 0 (locBytes w)) 4096 (timeBytes w) }

/-! ## Per-region processing loop (src/world/mod.rs, `run`) -/

/-- One iteration of the chunk loop for the region writer: on a kept
entry, `write_entry`, logging-and-continuing on failure. -/
def keepStep (keep : McaEntry → Bool) (w : McaWriter) (e : McaEntry) : McaWriter :=
  if keep e then (w.write_entry e).getD w else w

/-- The region writer after the chunk loop. -/
def writeKept (keep : McaEntry → Bool) (w : McaWriter) (es : List McaEntry) : McaWriter :=
  es.foldl (keepStep keep) w

/-- `run`'s processing of one region file: enumerate the populated slots,
append the kept ones in slot-index order, and finalize. -/
def processRegion (inp : List Nat) (rx rz : Int) (keep : McaEntry → Bool) :
    Option McaWriter :=
  (McaReader.entries inp rx rz).map (fun es =>
    (writeKept keep McaWriter.openW es).finalize)

/-- One iteration of the chunk loop for the region writer together with a
mirrored (entities or poi) family: on a kept entry the region entry is
appended, and the mirrored file's same-index entry, when present, is
appended to the mirrored writer.  Write failures are logged and skipped. -/
def mirrorStep (ein : List Nat) (rx rz : Int) (keep : McaEntry → Bool)
    (st : McaWriter × McaWriter) (e : McaEntry) : McaWriter × McaWriter :=
  if keep e then
    ((st.1.write_entry e).getD st.1,
     match McaReader.get ein rx rz e.index with
     | GetResult.ok (some ee) => (st.2.write_entry ee).getD st.2
     | _ => st.2)
  else st

/-- `run`'s processing of one region file with one mirrored family. -/
def processMirror (inp ein : List Nat) (rx rz : Int) (keep : McaEntry → Bool) :
    Option (McaWriter × McaWriter) :=
  (McaReader.entries inp rx rz).map (fun es =>
    let st := es.foldl (mirrorStep ein rx rz keep) (McaWriter.openW, McaWriter.openW)
    (st.1.finalize, st.2.finalize))

/-! ## xxHash32 and the framed-block codec (src/mca/entry.rs)

Modelled from the spec: the checksum of a framed block is "a 32-bit hash
of the decompressed data with seed 0x9747B28C, masked with 0x0FFFFFFF";
the hash used by the source is xxHash32 (the `xxhash_rust` crate), which
is reproduced here bit-exactly over byte lists. -/

def xxhPRIME1 : Nat := 2654435761
def xxhPRIME2 : Nat := 2246822519
def xxhPRIME3 : Nat := 3266489917
def xxhPRIME4 : Nat := 668265263
def xxhPRIME5 : Nat := 374761393

/-- 32-bit rotate left of `x < 2^32` by `r` (`0 < r < 32`). -/
def rotl32 (x r : Nat) : Nat :=
  x % 2 ^ (32 - r) * 2 ^ r + x / 2 ^ (32 - r)

def xxh32Round (acc lane : Nat) : Nat :=
  rotl32 ((acc + lane * xxhPRIME2) % 4294967296) 13 * xxhPRIME1 % 4294967296

/-- 16-byte stripes while `i + 16 ≤ len`; returns the final cursor and
the four accumulators.  The loop is written with structural fuel (each
iteration advances the cursor by 16, so any fuel above `len / 16` is
enough; callers pass `len + 1`). -/
def xxh32Stripes (data : List Nat) : Nat → Nat → Nat → Nat → Nat → Nat →
    Nat × Nat × Nat × Nat × Nat
  | 0, i, a1, a2, a3, a4 => (i, a1, a2, a3, a4)
  | fuel + 1, i, a1, a2, a3, a4 =>
    if i + 16 ≤ data.length then
      xxh32Stripes data fuel (i + 16)
        (xxh32Round a1 (readU32LE data i))
        (xxh32Round a2 (readU32LE data (i + 4)))
        (xxh32Round a3 (readU32LE data (i + 8)))
        (xxh32Round a4 (readU32LE data (i + 12)))
    else (i, a1, a2, a3, a4)

/-- 4-byte chunks of the tail while `i + 4 ≤ len` (structural fuel). -/
def xxh32Fours (data : List Nat) : Nat → Nat → Nat → Nat × Nat
  | 0, i, h => (i, h)
  | fuel + 1, i, h =>
    if i + 4 ≤ data.length then
      xxh32Fours data fuel (i + 4)
        (rotl32 ((h + readU32LE data i * xxhPRIME3) % 4294967296) 17 * xxhPRIME4 % 4294967296)
    else (i, h)

/-- Remaining single bytes (structural fuel). -/
def xxh32Tail (data : List Nat) : Nat → Nat → Nat → Nat
  | 0, _, h => h
  | fuel + 1, i, h =>
    if i < data.length then
      xxh32Tail data fuel (i + 1)
        (rotl32 ((h + data.getD i 0 * xxhPRIME5) % 4294967296) 11 * xxhPRIME1 % 4294967296)
    else h

def xxh32Avalanche (h0 : Nat) : Nat :=
  let h1 := h0 ^^^ h0 / 32768
  let h2 := h1 * xxhPRIME2 % 4294967296
  let h3 := h2 ^^^ h2 / 8192
  let h4 := h3 * xxhPRIME3 % 4294967296
  h4 ^^^ h4 / 65536

/-- xxHash32 of a byte list. -/
def xxh32 (data : List Nat) (seed : Nat) : Nat :=
  let len := data.length
  let st :=
    if 16 ≤ len then
      let s := xxh32Stripes data (len + 1) 0
        ((seed + xxhPRIME1 + xxhPRIME2) % 4294967296)
        ((seed + xxhPRIME2) % 4294967296)
        (seed % 4294967296)
        ((seed + 4294967296 - xxhPRIME1) % 4294967296)
      (s.1, (rotl32 s.2.1 1 + rotl32 s.2.2.1 7 + rotl32 s.2.2.2.1 12 +
             rotl32 s.2.2.2.2 18) % 4294967296)
    else (0, (seed + xxhPRIME5) % 4294967296)
  let h1 := (st.2 + len) % 4294967296
  let f := xxh32Fours data (len + 1) st.1 h1
  xxh32Avalanche (xxh32Tail data (len + 1) f.1 f.2)

/-- `LZ4_XXHASH_SEED = 0x9747b28c = 2538058380`; `lz4_checksum` masks
with 0x0FFFFFFF (`& 0x0FFFFFFF` is `% 2^28`). -/
def lz4_checksum (data : List Nat) : Nat :=
  xxh32 data 2538058380 % 268435456

/-- `LZ4_MAGIC = b"LZ4Block"`. -/
def lz4Magic : List Nat := [76, 90, 52, 66, 108, 111, 99, 107]

/-- The loop of `decode_lz4_blocks`.  `dec` stands for
`lz4_flex::block::decompress_size_prepended` (external crate), fed the
4-byte little-endian decompressed length followed by the block.
The loop is written with structural fuel: each iteration advances the
cursor by at least 21, so any fuel above `len / 21` is enough; the entry
point passes `len + 1`. -/
def decodeLz4Go (dec : List Nat → Option (List Nat)) (inp : List Nat) :
    Nat → Nat → List Nat → Option (List Nat)
  | 0, _, _ => none
  | fuel + 1, i, acc =>
    if i + 21 ≤ inp.length then
      if (inp.drop i).take 8 ≠ lz4Magic then none
      else
        let token := inp.getD (i + 8) 0
        let compLen := readU32LE inp (i + 9)
        let decompLen := readU32LE inp (i + 13)
        let checksumLe := readU32LE inp (i + 17)
        let start := i + 21
        if inp.length < start + compLen then none
        else
          let block := (inp.drop start).take compLen
          let decodedOpt :=
            if token &&& 240 = 16 then some block
            else if token &&& 240 = 32 then dec (le32Bytes decompLen ++ block)
            else none
          match decodedOpt with
          | none => none
          | some decoded =>
            if lz4_checksum decoded = checksumLe then
              decodeLz4Go dec inp fuel (start + compLen) (acc ++ decoded)
            else none
    else if i = inp.length then some acc else none

/-- `decode_lz4_blocks` (src/mca/entry.rs). -/
def decode_lz4_blocks (dec : List Nat → Option (List Nat)) (inp : List Nat) :
    Option (List Nat) :=
  decodeLz4Go dec inp (inp.length + 1) 0 []

/-- `McaEntry::all_data_uncompressed`, with the zlib and gzip decoders of
the external `flate2` crate abstracted as parameters. -/
def McaEntry.all_data_uncompressed
    (zlibDec gzipDec lz4Dec : List Nat → Option (List Nat))
    (e : McaEntry) : Option (List Nat) :=
  match e.data_bytes with
  | none => none
  | some (cm, data, _) =>
    match cm with
    | CompressionMethod.raw => some data
    | CompressionMethod.zlib => zlibDec data
    | CompressionMethod.gzip => gzipDec data
    | CompressionMethod.lz4 => decode_lz4_blocks lz4Dec data
    | _ => some []

/-! ## Fast tag scanner (src/patterns/inhabited.rs) -/

/-- ASCII bytes of `"InhabitedTime"` (13 bytes). -/
def inhabitedName : List Nat :=
  [73, 110, 104, 97, 98, 105, 116, 101, 100, 84, 105, 109, 101]

/-- The scanned byte pattern: `LONG_TAG = 4`, the big-endian u16 length of
the name (13, i.e. bytes 0 and 13), then the name; 16 bytes in all. -/
def inhabitedTag : List Nat := 4 :: 0 :: 13 :: inhabitedName

/-- The scan loop of `find_inhabited_fast`: while `i + 16 + 8 ≤ len`,
compare the 16 bytes at `i` against the pattern; on a match read the
following 8 bytes as a big-endian i64.  Structural fuel (the cursor
advances by 1 each iteration; the entry point passes `len + 1`). -/
def findScan (data : List Nat) : Nat → Nat → Option Int
  | 0, _ => none
  | fuel + 1, i =>
    if i + 16 + 8 ≤ data.length then
      if (data.drop i).take 16 = inhabitedTag then some (readI64BE data (i + 16))
      else findScan data fuel (i + 1)
    else none

/-- `find_inhabited_fast`. -/
def find_inhabited_fast (data : List Nat) : Option Int :=
  if data.length < 16 + 8 then none else findScan data (data.length + 1) 0

/-! ## Predicates (src/patterns) -/

/-- `InhabitedTimePattern::matches`. -/
def InhabitedTimePattern.matches
    (zlibDec gzipDec lz4Dec : List Nat → Option (List Nat))
    (threshold : Int) (remove_unknown : Bool) (e : McaEntry) : Option Bool :=
  match e.is_external with
  | none => none
  | some true => some (!remove_unknown)
  | some false =>
    match e.all_data_uncompressed zlibDec gzipDec lz4Dec with
    | none => none
    | some de =>
      if de = [] then some (!remove_unknown)
      else
        match find_inhabited_fast de with
        | some t => some (decide (threshold ≤ t))
        | none => some (!remove_unknown)

/-- `ListPattern::matches`: membership of the global coordinates. -/
def ListPattern.matches (coords : List (Int × Int)) (e : McaEntry) : Option Bool :=
  some (coords.any (fun c => decide (c.1 = e.global_x) && decide (c.2 = e.global_z)))

/-- The per-chunk predicate loop of `run` (src/world/mod.rs): the first
predicate returning `Ok(true)` keeps the chunk; an `Err` is logged and
treated like `Ok(false)`. -/
def evalChain (ps : List (McaEntry → Option Bool)) (e : McaEntry) : Bool :=
  match ps with
  | [] => false
  | p :: rest =>
    match p e with
    | some true => true
    | _ => evalChain rest e

/-! ## Force-loaded parser (src/world/mod.rs, `parse_force_loaded`) -/

/-- The fragment of `fastnbt::Value` the parser inspects. -/
inductive Nbt where
  | string (s : String)
  | list (xs : List Nbt)
  | compound (m : List (String × Nbt))
  | intArray (xs : List Int)
  | longArray (xs : List Int)
  | other
deriving Repr

/-- `HashMap::get` over the compound's entries. -/
def nbtLookup (m : List (String × Nbt)) (k : String) : Option Nbt :=
  match m with
  | [] => none
  | kv :: rest => if kv.1 = k then some kv.2 else nbtLookup rest k

/-- `*a as i32`: two's-complement truncation of an i64 to 32 bits. -/
def toI32 (a : Int) : Int :=
  let u := (a % 4294967296).toNat
  if u < 2147483648 then (u : Int) else (u : Int) - 4294967296

/-- Legacy format: the `Forced` long array consumed as consecutive pairs. -/
def forcedPairs (xs : List Int) : List (Int × Int) :=
  match xs with
  | a :: b :: rest => (toI32 a, toI32 b) :: forcedPairs rest
  | _ => []

/-- Modern format: tickets of type `"minecraft:forced"` carrying a
2-element `chunk_pos` int array. -/
def ticketCoords (ts : List Nbt) : List (Int × Int) :=
  ts.filterMap (fun t =>
    match t with
    | Nbt.compound tm =>
      match nbtLookup tm "type" with
      | some (Nbt.string s) =>
        if s = "minecraft:forced" then
          match nbtLookup tm "chunk_pos" with
          | some (Nbt.intArray pos) =>
            if pos.length = 2 then some (pos.getD 0 0, pos.getD 1 0) else none
          | _ => none
        else none
      | _ => none
    | _ => none)

/-- `parse_force_loaded` on the parsed root tag; `none` stands for any of
the earlier failures (missing `data/chunks.dat`, unreadable file, gzip
failure, malformed NBT), each of which returns the empty list. -/
def parse_force_loaded (root : Option Nbt) : List (Int × Int) :=
  match root with
  | none => []
  | some (Nbt.compound m) =>
    match nbtLookup m "data" with
    | some (Nbt.compound dm) =>
      (match nbtLookup dm "Forced" with
       | some (Nbt.longArray arr) => forcedPairs arr
       | _ => []) ++
      (match nbtLookup dm "tickets" with
       | some (Nbt.list ts) => ticketCoords ts
       | _ => [])
    | _ => []
  | some _ => []

/-! ## Basic facts about the byte-level helpers -/

lemma getD_replicate_lt {n k c : Nat} (h : k < n) :
    (List.replicate n c).getD k 0 = c := by
  rw [List.getD_eq_getElem?_getD, List.getElem?_replicate, if_pos h]; rfl

lemma getD_replicate_ge {n k c : Nat} (h : n ≤ k) :
    (List.replicate n c).getD k 0 = 0 := by
  rw [List.getD_eq_getElem?_getD, List.getElem?_replicate, if_neg (by omega)]; rfl

lemma readU32BE_of_zero_region (file : List Nat) (pos : Nat)
    (h0 : file.getD pos 0 = 0) (h1 : file.getD (pos + 1) 0 = 0)
    (h2 : file.getD (pos + 2) 0 = 0) (h3 : file.getD (pos + 3) 0 = 0) :
    readU32BE file pos = 0 := by
  unfold readU32BE
  rw [h0, h1, h2, h3]

lemma be32Bytes_length (v : Nat) : (be32Bytes v).length = 4 := rfl

lemma readU32BE_be32Bytes (v : Nat) (rest : List Nat) (hv : v < 4294967296) :
    readU32BE (be32Bytes v ++ rest) 0 = v := by
  simp only [readU32BE, be32Bytes]
  norm_num [List.getD_cons_zero, List.getD_cons_succ]
  omega

/-! ## C10: `McaReader::get` -/

/-- C8.  In the per-chunk predicate loop, a failing `matches` call is
treated as a `false` vote (the loop continues identically), and the chunk
is removed (the chain yields `false`) exactly when every predicate in the
chain returned `false` or failed. -/
theorem claim_C8 (ps : List (McaEntry → Option Bool)) (e : McaEntry) :
    (evalChain ps e = false ↔ ∀ p ∈ ps, p e = some false ∨ p e = none) ∧
    (∀ (p : McaEntry → Option Bool) (rest : List (McaEntry → Option Bool)),
      p e = none → evalChain (p :: rest) e = evalChain rest e) := by
  constructor
  · induction ps with
    | nil => simp [evalChain]
    | cons p rest ih =>
      rw [evalChain]
      rcases hp : p e with _ | b
      · simpa [hp] using ih
      · cases b
        · simpa [hp] using ih
        · simp [hp]
  · intro p rest hp
    rw [evalChain, hp]

/-- Witness for C8: a chain of one failing predicate and one false
predicate removes the chunk. -/
theorem claim_C8_witness :
    evalChain [fun _ => none, fun _ => some false] ⟨[], 0, 0, 0, 0, 0, 0⟩ = false := by
  refine ((claim_C8 [fun _ => none, fun _ => some false] ⟨[], 0, 0, 0, 0, 0, 0⟩).1).mpr ?_
  intro p hp
  rcases List.mem_cons.mp hp with h | h
  · subst h; right; rfl
  · rcases List.mem_cons.mp h with h2 | h2
    · subst h2; left; rfl
    · simp at h2

/-! ## C9: the force-loaded parser -/

lemma forcedPairs_length : ∀ xs : List Int, (forcedPairs xs).length = xs.length / 2
  | [] => by simp [forcedPairs]
  | [a] => by simp [forcedPairs]
  | a :: b :: rest => by
    rw [forcedPairs]
    simp only [List.length_cons, forcedPairs_length rest]
    omega

lemma forcedPairs_getD : ∀ (xs : List Int) (k : Nat), k < xs.length / 2 →
    (forcedPairs xs).getD k (0, 0) =
      (toI32 (xs.getD (2 * k) 0), toI32 (xs.getD (2 * k + 1) 0))
  | [], k, h => by simp at h
  | [a], k, h => by simp only [List.length_singleton] at h; omega
  | a :: b :: rest, 0, h => by simp [forcedPairs]
  | a :: b :: rest, k + 1, h => by
    have hk : k < rest.length / 2 := by
      simp only [List.length_cons] at h
      omega
    have h2 : 2 * (k + 1) = 2 * k + 1 + 1 := by ring
    rw [forcedPairs, h2]
    simpa using forcedPairs_getD rest k hk

/-- C9.  `parse_force_loaded` collects coordinates from both recognised
formats when both are present under the root's `data` compound, and every
parsing failure (missing/unreadable file, gzip failure, malformed tag
tree — all collapsed into the `none` root — as well as a non-compound
root, a missing `data` entry or a non-compound `data` entry) yields the
empty coordinate list.  The legacy `Forced` long array is consumed as
consecutive pairs truncated to 32 bits; tickets of type
`"minecraft:forced"` with a 2-element `chunk_pos` contribute their
coordinates. -/
theorem claim_C9 :
    (parse_force_loaded none = []) ∧
    (∀ v : Nbt, (∀ m, v ≠ Nbt.compound m) → parse_force_loaded (some v) = []) ∧
    (∀ m, nbtLookup m "data" = none →
      parse_force_loaded (some (Nbt.compound m)) = []) ∧
    (∀ m d, nbtLookup m "data" = some d → (∀ dm, d ≠ Nbt.compound dm) →
      parse_force_loaded (some (Nbt.compound m)) = []) ∧
    (∀ m dm arr ts, nbtLookup m "data" = some (Nbt.compound dm) →
      nbtLookup dm "Forced" = some (Nbt.longArray arr) →
      nbtLookup dm "tickets" = some (Nbt.list ts) →
      parse_force_loaded (some (Nbt.compound m)) = forcedPairs arr ++ ticketCoords ts) ∧
    (∀ arr : List Int, (forcedPairs arr).length = arr.length / 2) ∧
    (∀ (arr : List Int) (k : Nat), k < arr.length / 2 →
      (forcedPairs arr).getD k (0, 0) =
        (toI32 (arr.getD (2 * k) 0), toI32 (arr.getD (2 * k + 1) 0))) ∧
    (∀ (ts : List Nbt) (tm : List (String × Nbt)) (pos : List Int),
      Nbt.compound tm ∈ ts →
      nbtLookup tm "type" = some (Nbt.string "minecraft:forced") →
      nbtLookup tm "chunk_pos" = some (Nbt.intArray pos) → pos.length = 2 →
      (pos.getD 0 0, pos.getD 1 0) ∈ ticketCoords ts) := by
  refine ⟨rfl, ?_, ?_, ?_, ?_, forcedPairs_length, forcedPairs_getD, ?_⟩
  · intro v hv
    cases v with
    | compound m => exact absurd rfl (hv m)
    | string s => rfl
    | list xs => rfl
    | intArray xs => rfl
    | longArray xs => rfl
    | other => rfl
  · intro m hm
    rw [parse_force_loaded, hm]
  · intro m d hd hnc
    rw [parse_force_loaded, hd]
    cases d with
    | compound dm => exact absurd rfl (hnc dm)
    | string s => rfl
    | list xs => rfl
    | intArray xs => rfl
    | longArray xs => rfl
    | other => rfl
  · intro m dm arr ts hd hf ht
    rw [parse_force_loaded, hd]
    simp [hf, ht]
  · intro ts tm pos hmem hty hpos hlen
    rw [ticketCoords, List.mem_filterMap]
    refine ⟨Nbt.compound tm, hmem, ?_⟩
    simp [hty, hpos, hlen]

/-- Witness for C9: a root carrying both a legacy `Forced` array and a
modern forced ticket yields the coordinates of both. -/
theorem claim_C9_witness :
    parse_force_loaded (some (Nbt.compound
      [("data", Nbt.compound
        [("Forced", Nbt.longArray [1, 2]),
         ("tickets", Nbt.list [Nbt.compound
           [("type", Nbt.string "minecraft:forced"),
            ("chunk_pos", Nbt.intArray [3, 4])]])])])) = [(1, 2), (3, 4)] := by
  have h := claim_C9.2.2.2.2.1
    [("data", Nbt.compound
      [("Forced", Nbt.longArray [1, 2]),
       ("tickets", Nbt.list [Nbt.compound
         [("type", Nbt.string "minecraft:forced"),
          ("chunk_pos", Nbt.intArray [3, 4])]])])]
    [("Forced", Nbt.longArray [1, 2]),
     ("tickets", Nbt.list [Nbt.compound
       [("type", Nbt.string "minecraft:forced"),
        ("chunk_pos", Nbt.intArray [3, 4])]])]
    [1, 2]
    [Nbt.compound [("type", Nbt.string "minecraft:forced"),
                   ("chunk_pos", Nbt.intArray [3, 4])]]
    rfl rfl rfl
  rw [h]
  rfl

/-! ## C4: `InhabitedTimePattern::matches` -/

lemma int_toNat_emod_lt (V : Int) :
    (V % 18446744073709551616).toNat < 18446744073709551616 := by
  have h1 : 0 ≤ V % 18446744073709551616 := Int.emod_nonneg V (by norm_num)
  have h2 : V % 18446744073709551616 < 18446744073709551616 :=
    Int.emod_lt_of_pos V (by norm_num)
  omega

set_option maxHeartbeats 1000000 in
/-- Reading back the 8 big-endian bytes of an i64 in range, placed after
the 16-byte tag, recovers the value. -/
lemma readI64BE_tag_be64 (V : Int)
    (hlo : -9223372036854775808 ≤ V) (hhi : V < 9223372036854775808) :
    readI64BE (inhabitedTag ++ be64BytesOfInt V) 16 = V := by
  have hnn : 0 ≤ V % 18446744073709551616 := Int.emod_nonneg V (by norm_num)
  have hu := int_toNat_emod_lt V
  have h64 : readU64BE (inhabitedTag ++ be64BytesOfInt V) 16 =
      (V % 18446744073709551616).toNat := by
    have h : readU64BE (inhabitedTag ++ be64BytesOfInt V) 16 =
        ((V % 18446744073709551616).toNat / 72057594037927936 % 256 * 16777216 +
         (V % 18446744073709551616).toNat / 281474976710656 % 256 * 65536 +
         (V % 18446744073709551616).toNat / 1099511627776 % 256 * 256 +
         (V % 18446744073709551616).toNat / 4294967296 % 256) * 4294967296 +
        ((V % 18446744073709551616).toNat / 16777216 % 256 * 16777216 +
         (V % 18446744073709551616).toNat / 65536 % 256 * 65536 +
         (V % 18446744073709551616).toNat / 256 % 256 * 256 +
         (V % 18446744073709551616).toNat % 256) := rfl
    rw [h]
    omega
  have hVu : ((V % 18446744073709551616).toNat : Int) = V % 18446744073709551616 :=
    Int.toNat_of_nonneg hnn
  simp only [readI64BE]
  rw [h64]
  split_ifs with hcase
  · omega
  · omega

/-- When no position of the payload carries the 16-byte pattern, the scan
loop returns `none` for every fuel and start position. -/
lemma findScan_eq_none (data : List Nat)
    (hocc : ∀ j : Nat, (data.drop j).take 16 ≠ inhabitedTag) :
    ∀ fuel i, findScan data fuel i = none := by
  intro fuel
  induction fuel with
  | zero => intro i; rfl
  | succ n ih =>
    intro i
    rw [findScan]
    split
    · rw [if_neg (hocc i)]
      exact ih (i + 1)
    · rfl

/-- C5 counterexample.  The claim's payload uses the length bytes
`0x00 0x0E`, but `"InhabitedTime"` is 13 bytes long (`0x0D`), so the
scanner's pattern never occurs in that payload: the scanner returns
`none`, not the embedded value 42. -/
theorem claim_C5_counterexample :
    find_inhabited_fast ([4, 0, 14] ++ inhabitedName ++ [0, 0, 0, 0, 0, 0, 0, 42]) = none ∧
    find_inhabited_fast ([4, 0, 14] ++ inhabitedName ++ [0, 0, 0, 0, 0, 0, 0, 42]) ≠
      some 42 := by
  constructor
  · decide
  · decide

/-- C5 (amended).  For a payload built as the byte `0x04`, the two bytes
`0x00 0x0D` (the big-endian length of the 13-byte name), the ASCII bytes
of `"InhabitedTime"`, then the big-endian encoding of a signed 64-bit
value `V`, the fast tag scanner returns `V`; for a payload containing no
occurrence of the 16-byte tag pattern, or shorter than the pattern plus 8
bytes, the scanner returns `none`. -/
theorem claim_C5_amended :
    (∀ V : Int, -9223372036854775808 ≤ V → V < 9223372036854775808 →
      find_inhabited_fast (inhabitedTag ++ be64BytesOfInt V) = some V) ∧
    (∀ data : List Nat, (∀ j : Nat, (data.drop j).take 16 ≠ inhabitedTag) →
      find_inhabited_fast data = none) ∧
    (∀ data : List Nat, data.length < 24 → find_inhabited_fast data = none) := by
  refine ⟨?_, ?_, ?_⟩
  · intro V hlo hhi
    have hlen : (inhabitedTag ++ be64BytesOfInt V).length = 24 := by
      rw [List.length_append]
      rfl
    rw [find_inhabited_fast, hlen, if_neg (by norm_num)]
    show findScan _ (24 + 1) 0 = some V
    rw [findScan, if_pos (by rw [hlen]), List.drop_zero]
    rw [show (16 : Nat) = inhabitedTag.length from rfl, List.take_left,
      if_pos rfl]
    exact congrArg some (readI64BE_tag_be64 V hlo hhi)
  · intro data hocc
    rw [find_inhabited_fast]
    split
    · rfl
    · exact findScan_eq_none data hocc _ 0
  · intro data hlen
    rw [find_inhabited_fast, if_pos (by omega)]

/-- Witness for the amended C5 at `V = 42`. -/
theorem claim_C5_amended_witness :
    find_inhabited_fast (inhabitedTag ++ be64BytesOfInt 42) = some 42 :=
  claim_C5_amended.1 42 (by norm_num) (by norm_num)

/-! ## C6: raw frames in the framed-block decoder -/

/-- Reading a 32-bit little-endian value back from its serialized bytes
placed at the end of a prefix. -/
lemma readU32LE_at_append (pre rest : List Nat) (v : Nat) (hv : v < 4294967296) :
    readU32LE (pre ++ (le32Bytes v ++ rest)) pre.length = v := by
  have gk : ∀ k, (pre ++ (le32Bytes v ++ rest)).getD (pre.length + k) 0 =
      (le32Bytes v ++ rest).getD k 0 := by
    intro k
    rw [List.getD_append_right _ _ _ _ (Nat.le_add_right _ _), Nat.add_sub_cancel_left]
  have g0 : (pre ++ (le32Bytes v ++ rest)).getD pre.length 0 = v % 256 := by
    have h := gk 0
    rw [Nat.add_zero] at h
    rw [h]
    rfl
  have g1 : (pre ++ (le32Bytes v ++ rest)).getD (pre.length + 1) 0 = v / 256 % 256 := by
    rw [gk 1]; rfl
  have g2 : (pre ++ (le32Bytes v ++ rest)).getD (pre.length + 2) 0 = v / 65536 % 256 := by
    rw [gk 2]; rfl
  have g3 : (pre ++ (le32Bytes v ++ rest)).getD (pre.length + 3) 0 = v / 16777216 % 256 := by
    rw [gk 3]; rfl
  rw [readU32LE, g0, g1, g2, g3]
  omega

/-- C6 counterexample.  A raw frame (token high nibble 0x10) whose
declared decompressed length is 5 while its compressed length is 0, with
a correct checksum, decodes successfully (to the empty block): the
decoder never compares the two declared lengths on a raw frame. -/
theorem claim_C6_counterexample :
    decode_lz4_blocks (fun _ => none)
      (lz4Magic ++ [16] ++ le32Bytes 0 ++ le32Bytes 5 ++ le32Bytes (lz4_checksum []))
      = some [] ∧ (5 : Nat) ≠ 0 := by
  constructor
  · decide
  · decide

/-- C6 (amended).  For every frame whose token high nibble is 0x10 the
block bytes are used directly as the decoded output, whatever the
declared decompressed length `D`: a raw frame with a correct checksum
decodes to its block bytes for all `D`; `D = C` is not required. -/
theorem claim_C6_amended (dec : List Nat → Option (List Nat)) (block : List Nat)
    (D : Nat) (hb : block.length < 4294967296) (hD : D < 4294967296) :
    decode_lz4_blocks dec
      (lz4Magic ++ [16] ++ le32Bytes block.length ++ le32Bytes D ++
       le32Bytes (lz4_checksum block) ++ block) = some block := by
  have hcs : lz4_checksum block < 4294967296 := by
    have h := Nat.mod_lt (xxh32 block 2538251916) (show 0 < 268435456 by norm_num)
    rw [lz4_checksum]
    omega
  set inp := lz4Magic ++ [16] ++ le32Bytes block.length ++ le32Bytes D ++
      le32Bytes (lz4_checksum block) ++ block with hinp
  have hlen : inp.length = 21 + block.length := by
    rw [hinp]
    simp [lz4Magic, le32Bytes]
    omega
  have hmagicEq : inp.take 8 = lz4Magic := by
    rw [hinp]
    simp only [List.append_assoc]
    rw [show (8 : Nat) = lz4Magic.length from rfl, List.take_left]
  have htoken : inp.getD 8 0 = 16 := by
    rw [hinp]
    simp only [List.append_assoc]
    rw [show (8 : Nat) = lz4Magic.length from rfl,
      List.getD_append_right _ _ _ _ le_rfl, Nat.sub_self]
    rfl
  have hcomp : readU32LE inp 9 = block.length := by
    have hshape : inp = (lz4Magic ++ [16]) ++
        (le32Bytes block.length ++ (le32Bytes D ++
          (le32Bytes (lz4_checksum block) ++ block))) := by
      rw [hinp]; simp [List.append_assoc]
    rw [hshape, show (9 : Nat) = (lz4Magic ++ [16]).length from rfl]
    exact readU32LE_at_append _ _ _ hb
  have hdecomp : readU32LE inp 13 = D := by
    have hshape : inp = (lz4Magic ++ [16] ++ le32Bytes block.length) ++
        (le32Bytes D ++ (le32Bytes (lz4_checksum block) ++ block)) := by
      rw [hinp]; simp [List.append_assoc]
    rw [hshape,
      show (13 : Nat) = (lz4Magic ++ [16] ++ le32Bytes block.length).length from rfl]
    exact readU32LE_at_append _ _ _ hD
  have hck : readU32LE inp 17 = lz4_checksum block := by
    have hshape : inp = (lz4Magic ++ [16] ++ le32Bytes block.length ++ le32Bytes D) ++
        (le32Bytes (lz4_checksum block) ++ block) := by
      rw [hinp]; simp [List.append_assoc]
    rw [hshape,
      show (17 : Nat) =
        (lz4Magic ++ [16] ++ le32Bytes block.length ++ le32Bytes D).length from rfl]
    exact readU32LE_at_append _ _ _ hcs
  have hblock : (inp.drop 21).take block.length = block := by
    rw [hinp,
      show (21 : Nat) =
        (lz4Magic ++ [16] ++ le32Bytes block.length ++ le32Bytes D ++
          le32Bytes (lz4_checksum block)).length from rfl,
      List.drop_left, List.take_length]
  have hguard1 : 21 ≤ inp.length := by rw [hlen]; omega
  have hguard2 : ¬ (inp.length < 21 + block.length) := by rw [hlen]; omega
  have h16 : (16 : Nat) &&& 240 = 16 := by decide
  rw [decode_lz4_blocks, hlen]
  rw [decodeLz4Go]
  simp only [Nat.zero_add, List.drop_zero, List.nil_append, hmagicEq, htoken, hcomp,
    hdecomp, hck, hblock, hguard1, hguard2, h16, ne_eq, not_true_eq_false,
    if_false, if_true, ite_true, ite_false, not_false_eq_true]
  rw [show 21 + block.length = 20 + block.length + 1 from by omega]
  rw [decodeLz4Go]
  have hg3 : ¬ (20 + block.length + 1 + 21 ≤ inp.length) := by rw [hlen]; omega
  have hg4 : 20 + block.length + 1 = inp.length := by rw [hlen]; omega
  simp [hg3, hg4]

/-- Witness for the amended C6: a raw frame with block `[7, 8]` and
declared decompressed length 0 (≠ 2) decodes to `[7, 8]`. -/
theorem claim_C6_amended_witness :
    decode_lz4_blocks (fun _ => none)
      (lz4Magic ++ [16] ++ le32Bytes ([7, 8] : List Nat).length ++ le32Bytes 0 ++
       le32Bytes (lz4_checksum [7, 8]) ++ [7, 8]) = some [7, 8] :=
  claim_C6_amended (fun _ => none) [7, 8] 0 (by norm_num) (by norm_num)

/-! ## Writer infrastructure for C1, C2, C3, C7 -/

lemma getD_set_self (l : List Nat) (i v : Nat) (h : i < l.length) :
    (l.set i v).getD i 0 = v := by
  rw [List.getD_eq_getElem?_getD, List.getElem?_set_eq_of_lt _ h]; rfl

lemma getD_set_ne (l : List Nat) (i j v : Nat) (h : i ≠ j) :
    (l.set i v).getD j 0 = l.getD j 0 := by
  rw [List.getD_eq_getElem?_getD, List.getElem?_set_ne h, ← List.getD_eq_getElem?_getD]

lemma writeAt_eq_append (file bytes : List Nat) :
    writeAt file file.length bytes = file ++ bytes := by
  rw [writeAt, Nat.sub_self, List.take_length]
  simp [List.drop_eq_nil_of_le]

/-- Slicing below the stable prefix is unchanged by appending. -/
lemma take_drop_append (l t : List Nat) (start n : Nat) (h : start + n ≤ l.length) :
    ((l ++ t).drop start).take n = (l.drop start).take n := by
  rw [List.drop_append_of_le_length (by omega)]
  rw [List.take_append_of_le_length (by rw [List.length_drop]; omega)]

/-- The state invariant maintained by the writer during the append phase:
the cursor sits at the end of the file, stays sector-aligned and at or
past byte 8192; the three tables have 1024 `u32` entries; and every
non-zero recorded offset is the truncation of a sector-aligned write
position at or past 8192 and before the cursor. -/
def WriterInv (w : McaWriter) : Prop :=
  w.file.length = w.data_offset ∧
  8192 ≤ w.data_offset ∧
  w.data_offset % 4096 = 0 ∧
  w.offsets.length = 1024 ∧ w.sizes.length = 1024 ∧ w.timestamps.length = 1024 ∧
  (∀ i, w.offsets.getD i 0 < 4294967296) ∧
  (∀ i, w.sizes.getD i 0 < 4294967296) ∧
  (∀ i, w.offsets.getD i 0 ≠ 0 →
    ∃ start, w.offsets.getD i 0 = start % 4294967296 ∧ 8192 ≤ start ∧
      start % 4096 = 0 ∧ start < w.data_offset)

lemma WriterInv_openW : WriterInv McaWriter.openW := by
  refine ⟨List.length_replicate 8192 0, le_rfl, by rfl,
    List.length_replicate 1024 0, List.length_replicate 1024 0,
    List.length_replicate 1024 0, ?_, ?_, ?_⟩
  · intro i
    rcases lt_or_ge i 1024 with h | h
    · rw [McaWriter.openW, getD_replicate_lt h]; norm_num
    · rw [McaWriter.openW, getD_replicate_ge h]; norm_num
  · intro i
    rcases lt_or_ge i 1024 with h | h
    · rw [McaWriter.openW, getD_replicate_lt h]; norm_num
    · rw [McaWriter.openW, getD_replicate_ge h]; norm_num
  · intro i hi
    exfalso
    rcases lt_or_ge i 1024 with h | h
    · rw [McaWriter.openW, getD_replicate_lt h] at hi; exact hi rfl
    · rw [McaWriter.openW, getD_replicate_ge h] at hi; exact hi rfl

/-- The state after a successful `write_entry` of serialized bytes `sb`. -/
def writeStateAfter (w : McaWriter) (e : McaEntry) (sb : List Nat) : McaWriter :=
  { file := w.file ++ sb ++ List.replicate (padOf sb.length) 0
    data_offset := w.data_offset + sb.length + padOf sb.length
    offsets := w.offsets.set e.index (w.data_offset % 4294967296)
    sizes := w.sizes.set e.index ((sb.length + padOf sb.length) % 4294967296)
    timestamps := w.timestamps.set e.index e.modified }

lemma write_entry_eq (w : McaWriter) (e : McaEntry) (sb : List Nat)
    (hsb : e.serialized_bytes = some sb) (hfl : w.file.length = w.data_offset) :
    w.write_entry e = some (writeStateAfter w e sb) := by
  rw [McaWriter.write_entry, hsb]
  have h1 : writeAt w.file w.data_offset sb = w.file ++ sb := by
    rw [← hfl]; exact writeAt_eq_append w.file sb
  have h2 : writeAt (w.file ++ sb) (w.data_offset + sb.length)
      (List.replicate (padOf sb.length) 0) =
      w.file ++ sb ++ List.replicate (padOf sb.length) 0 := by
    have hl : (w.file ++ sb).length = w.data_offset + sb.length := by
      rw [List.length_append, hfl]
    rw [← hl]
    exact writeAt_eq_append _ _
  simp only [h1, h2, writeStateAfter]

lemma getD_set_cases (l : List Nat) (i j v : Nat) :
    (l.set i v).getD j 0 = l.getD j 0 ∨ (l.set i v).getD j 0 = v := by
  rcases eq_or_ne i j with h | h
  · subst h
    rcases lt_or_ge i l.length with hl | hl
    · right; exact getD_set_self l i v hl
    · left; rw [List.set_eq_of_length_le hl]
  · left; exact getD_set_ne l i j v h

/-- A successfully serialized slot carries at least its 4-byte length
word (the header read guarantees 5 available bytes). -/
lemma serialized_length_ge (e : McaEntry) (sb : List Nat)
    (h : e.serialized_bytes = some sb) : 4 ≤ sb.length := by
  rw [McaEntry.serialized_bytes] at h
  rcases hh : e.read_header with _ | hd
  · rw [hh] at h; exact Option.noConfusion h
  · rw [hh] at h
    injection h with h
    subst h
    have hlen : e.start + 5 ≤ e.data.length := by
      by_contra hc
      rw [McaEntry.read_header, if_neg hc] at hh
      exact Option.noConfusion hh
    rw [List.length_take, List.length_drop]
    omega

lemma padOf_add_mod (n : Nat) : (n + padOf n) % 4096 = 0 := by
  rw [padOf]; omega

lemma WriterInv_writeStateAfter (w : McaWriter) (e : McaEntry) (sb : List Nat)
    (hw : WriterInv w) (hsb : e.serialized_bytes = some sb) :
    WriterInv (writeStateAfter w e sb) := by
  obtain ⟨h1, h2, h3, h4, h5, h6, h7, h8, h9⟩ := hw
  have hsb4 := serialized_length_ge e sb hsb
  have hpad := padOf_add_mod sb.length
  refine ⟨?_, ?_, ?_, ?_, ?_, ?_, ?_, ?_, ?_⟩
  · simp only [writeStateAfter, List.length_append, List.length_replicate, h1]
  · simp only [writeStateAfter]
    omega
  · simp only [writeStateAfter]
    omega
  · simp only [writeStateAfter, List.length_set]; exact h4
  · simp only [writeStateAfter, List.length_set]; exact h5
  · simp only [writeStateAfter, List.length_set]; exact h6
  · intro i
    rcases getD_set_cases w.offsets e.index i (w.data_offset % 4294967296) with h | h
    · simpa only [writeStateAfter, h] using h7 i
    · simp only [writeStateAfter, h]
      exact Nat.mod_lt _ (by norm_num)
  · intro i
    rcases getD_set_cases w.sizes e.index i ((sb.length + padOf sb.length) % 4294967296)
        with h | h
    · simpa only [writeStateAfter, h] using h8 i
    · simp only [writeStateAfter, h]
      exact Nat.mod_lt _ (by norm_num)
  · intro i hi
    simp only [writeStateAfter] at hi ⊢
    rcases getD_set_cases w.offsets e.index i (w.data_offset % 4294967296) with h | h
    · rw [h] at hi ⊢
      obtain ⟨start, hs1, hs2, hs3, hs4⟩ := h9 i hi
      exact ⟨start, hs1, hs2, hs3, by omega⟩
    · rw [h] at hi ⊢
      exact ⟨w.data_offset, rfl, h2, h3, by omega⟩

lemma keepStep_cases (keep : McaEntry → Bool) (w : McaWriter) (e : McaEntry)
    (hfl : w.file.length = w.data_offset) :
    keepStep keep w e = w ∨
    (keep e = true ∧ ∃ sb, e.serialized_bytes = some sb ∧
      keepStep keep w e = writeStateAfter w e sb) := by
  cases hk : keep e with
  | false =>
    left
    rw [keepStep, if_neg (by simp [hk])]
  | true =>
    cases hsb : e.serialized_bytes with
    | none =>
      left
      rw [keepStep, if_pos hk, McaWriter.write_entry, hsb]
      rfl
    | some sb =>
      right
      refine ⟨rfl, sb, rfl, ?_⟩
      rw [keepStep, if_pos hk, write_entry_eq w e sb hsb hfl]
      rfl

lemma WriterInv_keepStep (keep : McaEntry → Bool) (w : McaWriter) (e : McaEntry)
    (hw : WriterInv w) : WriterInv (keepStep keep w e) := by
  rcases keepStep_cases keep w e hw.1 with h | ⟨_, sb, hsb, h⟩
  · rw [h]; exact hw
  · rw [h]; exact WriterInv_writeStateAfter w e sb hw hsb

lemma keepStep_mono (keep : McaEntry → Bool) (w : McaWriter) (e : McaEntry)
    (hw : WriterInv w) : w.data_offset ≤ (keepStep keep w e).data_offset := by
  rcases keepStep_cases keep w e hw.1 with h | ⟨_, sb, hsb, h⟩
  · rw [h]
  · rw [h]; simp only [writeStateAfter]; omega

lemma writeKept_cons (keep : McaEntry → Bool) (w : McaWriter) (e : McaEntry)
    (es : List McaEntry) :
    writeKept keep w (e :: es) = writeKept keep (keepStep keep w e) es := by
  rw [writeKept, writeKept, List.foldl_cons]

/-- Main invariant lemma for the chunk loop: the invariant is preserved,
the cursor only advances, the file only grows by appending, and a slot
whose recorded offset or size changed was written by some kept,
serializable entry of the list with that slot index. -/
lemma writeKept_main (keep : McaEntry → Bool) :
    ∀ (es : List McaEntry) (w : McaWriter), WriterInv w →
      WriterInv (writeKept keep w es) ∧
      w.data_offset ≤ (writeKept keep w es).data_offset ∧
      (∃ t, (writeKept keep w es).file = w.file ++ t) ∧
      (∀ i : Nat,
        ((writeKept keep w es).offsets.getD i 0 ≠ w.offsets.getD i 0 ∨
         (writeKept keep w es).sizes.getD i 0 ≠ w.sizes.getD i 0) →
        ∃ e ∈ es, e.index = i ∧ keep e = true ∧ e.serialized_bytes ≠ none) := by
  intro es
  induction es with
  | nil =>
    intro w hw
    refine ⟨hw, le_rfl, ⟨[], by simp [writeKept]⟩, ?_⟩
    intro i hi
    rw [writeKept] at hi
    simp at hi
  | cons e es ih =>
    intro w hw
    rw [writeKept_cons]
    rcases keepStep_cases keep w e hw.1 with hst | ⟨hk, sb, hsb, hst⟩
    · rw [hst]
      obtain ⟨q1, q2, q3, q4⟩ := ih w hw
      exact ⟨q1, q2, q3, fun i hi => by
        obtain ⟨e2, he2, h⟩ := q4 i hi
        exact ⟨e2, List.mem_cons_of_mem e he2, h⟩⟩
    · have hw1 : WriterInv (writeStateAfter w e sb) :=
        WriterInv_writeStateAfter w e sb hw hsb
      obtain ⟨q1, q2, q3, q4⟩ := ih (writeStateAfter w e sb) hw1
      rw [hst]
      refine ⟨q1, ?_, ?_, ?_⟩
      · have : w.data_offset ≤ (writeStateAfter w e sb).data_offset := by
          simp only [writeStateAfter]; omega
        omega
      · obtain ⟨t, ht⟩ := q3
        refine ⟨sb ++ List.replicate (padOf sb.length) 0 ++ t, ?_⟩
        rw [ht]
        simp only [writeStateAfter]
        simp [List.append_assoc]
      · intro i hi
        by_cases hch :
          (writeKept keep (writeStateAfter w e sb) es).offsets.getD i 0 ≠
            (writeStateAfter w e sb).offsets.getD i 0 ∨
          (writeKept keep (writeStateAfter w e sb) es).sizes.getD i 0 ≠
            (writeStateAfter w e sb).sizes.getD i 0
        · obtain ⟨e2, he2, h⟩ := q4 i hch
          exact ⟨e2, List.mem_cons_of_mem e he2, h⟩
        · push_neg at hch
          rcases eq_or_ne e.index i with hidx | hidx
          · exact ⟨e, List.mem_cons_self e es, hidx, hk, by rw [hsb]; simp⟩
          · exfalso
            rw [hch.1, hch.2] at hi
            simp only [writeStateAfter] at hi
            rw [getD_set_ne _ _ _ _ hidx, getD_set_ne _ _ _ _ hidx] at hi
            rcases hi with hi | hi <;> exact hi rfl

/-- Location lemma for the chunk loop: a kept entry with readable
serialized bytes and a distinct slot index is written at some
sector-aligned position at or past the starting cursor; the final tables
record the truncated position and padded size, and the final file carries
the serialized bytes verbatim at that position. -/
lemma writeKept_found (keep : McaEntry → Bool) :
    ∀ (es : List McaEntry) (w : McaWriter), WriterInv w →
      List.Pairwise (fun a b => a.index ≠ b.index) es →
      ∀ e ∈ es, keep e = true → e.index < 1024 →
      ∀ sb, e.serialized_bytes = some sb →
        ∃ start, w.data_offset ≤ start ∧ start % 4096 = 0 ∧ 8192 ≤ start ∧
          (writeKept keep w es).offsets.getD e.index 0 = start % 4294967296 ∧
          (writeKept keep w es).sizes.getD e.index 0 =
            (sb.length + padOf sb.length) % 4294967296 ∧
          start + sb.length + padOf sb.length ≤ (writeKept keep w es).data_offset ∧
          ((writeKept keep w es).file.drop start).take sb.length = sb := by
  intro es
  induction es with
  | nil => intro w _ _ e he; exact absurd he (List.not_mem_nil e)
  | cons a es ih =>
    intro w hw hpw e he hk hidx sb hsb
    obtain ⟨hpa, hpes⟩ := List.pairwise_cons.mp hpw
    rw [writeKept_cons]
    rcases List.mem_cons.mp he with rfl | hmem
    · -- the head entry is written first, at the current cursor
      have hstep : keepStep keep w e = writeStateAfter w e sb := by
        rw [keepStep, if_pos hk, write_entry_eq w e sb hsb hw.1]
        rfl
      rw [hstep]
      have hw1 := WriterInv_writeStateAfter w e sb hw hsb
      obtain ⟨q1, q2, q3, q4⟩ := writeKept_main keep es (writeStateAfter w e sb) hw1
      have hfix :
          (writeKept keep (writeStateAfter w e sb) es).offsets.getD e.index 0 =
            (writeStateAfter w e sb).offsets.getD e.index 0 ∧
          (writeKept keep (writeStateAfter w e sb) es).sizes.getD e.index 0 =
            (writeStateAfter w e sb).sizes.getD e.index 0 := by
        by_contra hc
        push_neg at hc
        have : (writeKept keep (writeStateAfter w e sb) es).offsets.getD e.index 0 ≠
              (writeStateAfter w e sb).offsets.getD e.index 0 ∨
            (writeKept keep (writeStateAfter w e sb) es).sizes.getD e.index 0 ≠
              (writeStateAfter w e sb).sizes.getD e.index 0 := by
          by_cases h :
            (writeKept keep (writeStateAfter w e sb) es).offsets.getD e.index 0 =
              (writeStateAfter w e sb).offsets.getD e.index 0
          · right; exact hc h
          · left; exact h
        obtain ⟨e2, he2, hi2, _, _⟩ := q4 e.index this
        exact (hpa e2 he2) hi2.symm
      have hoffs : (writeStateAfter w e sb).offsets.getD e.index 0 =
          w.data_offset % 4294967296 := by
        simp only [writeStateAfter]
        exact getD_set_self _ _ _ (by rw [hw.2.2.2.1]; exact hidx)
      have hsizes : (writeStateAfter w e sb).sizes.getD e.index 0 =
          (sb.length + padOf sb.length) % 4294967296 := by
        simp only [writeStateAfter]
        exact getD_set_self _ _ _ (by rw [hw.2.2.2.2.1]; exact hidx)
      have hbytes : ((writeStateAfter w e sb).file.drop w.data_offset).take sb.length
          = sb := by
        simp only [writeStateAfter]
        rw [List.append_assoc, ← hw.1, List.drop_left,
          List.take_append_of_le_length le_rfl, List.take_length]
      obtain ⟨t, ht⟩ := q3
      refine ⟨w.data_offset, le_rfl, hw.2.2.1, hw.2.1, ?_, ?_, ?_, ?_⟩
      · rw [hfix.1, hoffs]
      · rw [hfix.2, hsizes]
      · have hd1 : (writeStateAfter w e sb).data_offset =
            w.data_offset + sb.length + padOf sb.length := by
          simp only [writeStateAfter]
        omega
      · rw [ht, take_drop_append]
        · exact hbytes
        · have : (writeStateAfter w e sb).file.length =
              (writeStateAfter w e sb).data_offset := hw1.1
          have hd1 : (writeStateAfter w e sb).data_offset =
              w.data_offset + sb.length + padOf sb.length := by
            simp only [writeStateAfter]
          omega
    · -- the entry sits in the tail; step once and recurse
      have hw1 := WriterInv_keepStep keep w a hw
      have hmono := keepStep_mono keep w a hw
      obtain ⟨start, hs1, hs2, hs3, hs4, hs5, hs6, hs7⟩ :=
        ih (keepStep keep w a) hw1 hpes e hmem hk hidx sb hsb
      exact ⟨start, le_trans hmono hs1, hs2, hs3, hs4, hs5, hs6, hs7⟩

lemma getD_range_lt (n i : Nat) (h : i < n) : (List.range n).getD i 0 = i := by
  rw [List.getD_eq_getElem?_getD, List.getElem?_range h]
  rfl

lemma drop_append_ge (l1 l2 : List Nat) (n : Nat) (h : l1.length ≤ n) :
    (l1 ++ l2).drop n = l2.drop (n - l1.length) := by
  rcases Nat.exists_eq_add_of_le h with ⟨k, rfl⟩
  rw [List.drop_append]
  simp

lemma flatten_map4_length (f : Nat → List Nat) (hf : ∀ x, (f x).length = 4) :
    ∀ l : List Nat, ((l.map f).flatten).length = 4 * l.length
  | [] => by simp
  | a :: l => by
    simp only [List.map_cons, List.flatten_cons, List.length_append, hf a,
      flatten_map4_length f hf l, List.length_cons]
    omega

lemma flatten_map4_getD (f : Nat → List Nat) (hf : ∀ x, (f x).length = 4) :
    ∀ (l : List Nat) (i k : Nat), i < l.length → k < 4 →
      ((l.map f).flatten).getD (4 * i + k) 0 = (f (l.getD i 0)).getD k 0
  | [], i, k, hi, _ => absurd hi (by simp)
  | a :: l, 0, k, hi, hk => by
    simp only [List.map_cons, List.flatten_cons]
    rw [Nat.mul_zero, Nat.zero_add]
    rw [List.getD_append _ _ _ _ (by rw [hf a]; exact hk)]
    simp
  | a :: l, i + 1, k, hi, hk => by
    simp only [List.map_cons, List.flatten_cons]
    rw [List.getD_append_right _ _ _ _ (by rw [hf a]; omega)]
    have h2 : 4 * (i + 1) + k - (f a).length = 4 * i + k := by rw [hf a]; omega
    rw [h2]
    have h3 := flatten_map4_getD f hf l i k (by simpa using hi) hk
    simpa using h3

lemma locBytes_length (w : McaWriter) : (locBytes w).length = 4096 := by
  rw [locBytes, flatten_map4_length _ (fun x => be32Bytes_length _), List.length_range]

lemma timeBytes_length (w : McaWriter) : (timeBytes w).length = 4096 := by
  rw [timeBytes, flatten_map4_length _ (fun x => be32Bytes_length _), List.length_range]

lemma locBytes_getD (w : McaWriter) (i k : Nat) (hi : i < 1024) (hk : k < 4) :
    (locBytes w).getD (4 * i + k) 0 = (be32Bytes (locWord w i)).getD k 0 := by
  rw [locBytes, flatten_map4_getD _ (fun x => be32Bytes_length _) _ i k
    (by rw [List.length_range]; exact hi) hk, getD_range_lt _ _ hi]

lemma writeAt_zero (f b : List Nat) : writeAt f 0 b = b ++ f.drop b.length := by
  rw [writeAt]
  simp

lemma finalize_file (w : McaWriter) (hlen : 8192 ≤ w.file.length) :
    (w.finalize).file = locBytes w ++ (timeBytes w ++ w.file.drop 8192) := by
  rw [McaWriter.finalize]
  simp only
  rw [writeAt_zero, locBytes_length]
  rw [writeAt]
  have hX : (locBytes w ++ w.file.drop 4096).length = w.file.length := by
    rw [List.length_append, locBytes_length, List.length_drop]; omega
  have ht : (locBytes w ++ w.file.drop 4096).take 4096 = locBytes w := by
    rw [List.take_append_of_le_length (by rw [locBytes_length])]
    exact List.take_of_length_le (by rw [locBytes_length])
  have hz : 4096 - (locBytes w ++ w.file.drop 4096).length = 0 := by
    rw [hX]; omega
  have hd : (locBytes w ++ w.file.drop 4096).drop (4096 + (timeBytes w).length) =
      w.file.drop 8192 := by
    rw [timeBytes_length, drop_append_ge _ _ _ (by rw [locBytes_length]; omega),
      locBytes_length, List.drop_drop]
  rw [ht, hz, hd]
  simp

lemma finalize_data_offset (w : McaWriter) :
    (w.finalize).data_offset = w.data_offset := rfl

lemma finalize_offsets (w : McaWriter) : (w.finalize).offsets = w.offsets := rfl

lemma finalize_sizes (w : McaWriter) : (w.finalize).sizes = w.sizes := rfl

lemma finalize_file_length (w : McaWriter) (hlen : 8192 ≤ w.file.length) :
    (w.finalize).file.length = w.file.length := by
  rw [finalize_file w hlen]
  simp only [List.length_append, locBytes_length, timeBytes_length, List.length_drop]
  omega

/-- Data written at or past byte 8192 is untouched by `finalize` (which
only overwrites the two 4096-byte header tables). -/
lemma finalize_drop (w : McaWriter) (hlen : 8192 ≤ w.file.length) (s : Nat)
    (hs : 8192 ≤ s) :
    (w.finalize).file.drop s = w.file.drop s := by
  rw [finalize_file w hlen]
  rw [drop_append_ge _ _ _ (by rw [locBytes_length]; omega), locBytes_length]
  rw [drop_append_ge _ _ _ (by rw [timeBytes_length]; omega), timeBytes_length]
  rw [List.drop_drop]
  have h : 8192 + (s - 4096 - 4096) = s := by omega
  rw [h]

/-- After `finalize`, the location word read back from the output file at
slot `i` is exactly `locWord`. -/
lemma readU32BE_finalize (w : McaWriter) (hw : WriterInv w) (i : Nat)
    (hi : i < 1024) :
    readU32BE (w.finalize).file (i * 4) = locWord w i := by
  obtain ⟨h1, h2, h3, h4, h5, h6, h7, h8, h9⟩ := hw
  have hlw : locWord w i < 4294967296 := by
    rw [locWord]
    have ho := h7 i
    have hs := h8 i
    omega
  have hlen : 8192 ≤ w.file.length := by omega
  have g : ∀ k, k < 4 →
      (locBytes w ++ (timeBytes w ++ w.file.drop 8192)).getD (4 * i + k) 0 =
        (be32Bytes (locWord w i)).getD k 0 := by
    intro k hk
    rw [List.getD_append _ _ _ _ (by rw [locBytes_length]; omega)]
    exact locBytes_getD w i k hi hk
  have e0 : (locBytes w ++ (timeBytes w ++ w.file.drop 8192)).getD (i * 4) 0 =
      locWord w i / 16777216 % 256 := by
    have h := g 0 (by norm_num)
    rw [show 4 * i + 0 = i * 4 from by ring] at h
    exact h
  have e1 : (locBytes w ++ (timeBytes w ++ w.file.drop 8192)).getD (i * 4 + 1) 0 =
      locWord w i / 65536 % 256 := by
    have h := g 1 (by norm_num)
    rw [show 4 * i + 1 = i * 4 + 1 from by ring] at h
    exact h
  have e2 : (locBytes w ++ (timeBytes w ++ w.file.drop 8192)).getD (i * 4 + 2) 0 =
      locWord w i / 256 % 256 := by
    have h := g 2 (by norm_num)
    rw [show 4 * i + 2 = i * 4 + 2 from by ring] at h
    exact h
  have e3 : (locBytes w ++ (timeBytes w ++ w.file.drop 8192)).getD (i * 4 + 3) 0 =
      locWord w i % 256 := by
    have h := g 3 (by norm_num)
    rw [show 4 * i + 3 = i * 4 + 3 from by ring] at h
    exact h
  rw [finalize_file w hlen, readU32BE, e0, e1, e2, e3]
  omega

/-- A slot of the finalized output file is non-empty exactly when the
writer recorded a non-zero sector offset and a padded size whose low
8 sector-count bits are non-zero. -/
lemma slotNonEmpty_finalize (w : McaWriter) (hw : WriterInv w) (i : Nat)
    (hi : i < 1024) :
    slotNonEmpty (w.finalize).file i ↔
      (w.offsets.getD i 0 / 4096 ≠ 0 ∧ w.sizes.getD i 0 / 4096 % 256 ≠ 0) := by
  have hrb := readU32BE_finalize w hw i hi
  rw [slotNonEmpty, readLocOff, readLocSize, hrb, locWord]
  have hs : w.sizes.getD i 0 / 4096 % 256 < 256 := Nat.mod_lt _ (by norm_num)
  constructor
  · rintro ⟨ha, hb⟩
    constructor
    · intro hc; rw [hc] at ha hb; omega
    · intro hc; rw [hc] at ha hb; omega
  · rintro ⟨ha, hb⟩
    constructor
    · intro hc; omega
    · intro hc; omega

/-! ## Characterization of `McaReader::entries` -/

lemma pairwise_filterMap_index (f : Nat → Option McaEntry)
    (hf : ∀ i e, f i = some e → e.index = i) :
    ∀ l : List Nat, l.Pairwise (· ≠ ·) →
      (l.filterMap f).Pairwise (fun a b => a.index ≠ b.index)
  | [], _ => by simp
  | a :: l, hp => by
    obtain ⟨ha, hl⟩ := List.pairwise_cons.mp hp
    rw [List.filterMap_cons]
    cases hfa : f a with
    | none => exact pairwise_filterMap_index f hf l hl
    | some e =>
      rw [List.pairwise_cons]
      refine ⟨?_, pairwise_filterMap_index f hf l hl⟩
      intro e2 he2
      obtain ⟨j, hj, hfj⟩ := List.mem_filterMap.mp he2
      rw [hf a e hfa, hf j e2 hfj]
      exact ha j hj

lemma read_header_len (e : McaEntry) (h : Nat × CompressionMethod × Option (List Nat))
    (hh : e.read_header = some h) : h.1 = readU32BE e.data e.start := by
  simp only [McaEntry.read_header] at hh
  split at hh
  · split at hh
    · exact absurd hh (by simp)
    · split at hh
      · split at hh
        · split at hh
          · injection hh with hh; rw [← hh]
          · exact absurd hh (by simp)
        · exact absurd hh (by simp)
      · injection hh with hh; rw [← hh]
  · exact absurd hh (by simp)

lemma serialized_of_entry (e : McaEntry) (sb : List Nat)
    (hsb : e.serialized_bytes = some sb) :
    sb = (e.data.drop e.start).take (4 + readU32BE e.data e.start) := by
  rw [McaEntry.serialized_bytes] at hsb
  rcases hh : e.read_header with _ | h
  · rw [hh] at hsb; exact Option.noConfusion hsb
  · rw [hh] at hsb
    injection hsb with hsb
    rw [← hsb, read_header_len e h hh]

set_option maxRecDepth 4096 in
/-- What `entries` guarantees about the produced list. -/
lemma entries_spec (file : List Nat) (rx rz : Int) (es : List McaEntry)
    (he : McaReader.entries file rx rz = some es) :
    8192 ≤ file.length ∧
    (∀ e ∈ es, e.index < 1024 ∧ e.data = file ∧
      e.start = readLocOff file e.index ∧ slotNonEmpty file e.index) ∧
    List.Pairwise (fun a b => a.index ≠ b.index) es := by
  rw [McaReader.entries] at he
  by_cases hlen : 8192 ≤ file.length
  · rw [if_pos hlen] at he
    injection he with he
    refine ⟨hlen, ?_, ?_⟩
    · intro e hmem
      rw [← he] at hmem
      obtain ⟨i, hi, hfi⟩ := List.mem_filterMap.mp hmem
      rw [List.mem_range] at hi
      by_cases hc : readLocOff file i = 0 ∨ readLocSize file i = 0
      · rw [if_pos hc] at hfi
        exact Option.noConfusion hfi
      · rw [if_neg hc] at hfi
        injection hfi with hfi
        push_neg at hc
        rw [← hfi]
        exact ⟨hi, rfl, rfl, hc⟩
    · rw [← he]
      refine pairwise_filterMap_index _ ?_ _
        (List.Pairwise.imp Nat.ne_of_lt (List.pairwise_lt_range 1024))
      intro i e hfi
      by_cases hc : readLocOff file i = 0 ∨ readLocSize file i = 0
      · rw [if_pos hc] at hfi
        exact Option.noConfusion hfi
      · rw [if_neg hc] at hfi
        injection hfi with hfi
        exact (congrArg McaEntry.index hfi).symm
  · rw [if_neg hlen] at he
    exact Option.noConfusion he

/-! ## C3: writer initialisation and alignment -/

lemma openW_offsets_getD (i : Nat) : McaWriter.openW.offsets.getD i 0 = 0 := by
  rcases lt_or_ge i 1024 with h | h
  · rw [McaWriter.openW, getD_replicate_lt h]
  · rw [McaWriter.openW, getD_replicate_ge h]

/-- C3.  The writer initialises the file with 8192 zero bytes and each
append lands at the sector-aligned cursor and is zero-padded to the next
4096-byte boundary; hence after any sequence of appends and `finalize`
the output file size is a multiple of 4096, the file is at least 8192
bytes (data begins at byte 8192), and every stored slot's decoded byte
offset is ≥ 8192, i.e. its sector index is ≥ 2.  (The bound keeps the
`u32` offset truncation inactive.) -/
theorem claim_C3 (es : List McaEntry) (keep : McaEntry → Bool)
    (hbound : (writeKept keep McaWriter.openW es).data_offset ≤ 4294967296) :
    McaWriter.openW.file = List.replicate 8192 0 ∧
    McaWriter.openW.data_offset = 8192 ∧
    ((writeKept keep McaWriter.openW es).finalize).file.length % 4096 = 0 ∧
    8192 ≤ ((writeKept keep McaWriter.openW es).finalize).file.length ∧
    (∀ i, i < 1024 →
      slotNonEmpty ((writeKept keep McaWriter.openW es).finalize).file i →
      8192 ≤ readLocOff ((writeKept keep McaWriter.openW es).finalize).file i ∧
      2 ≤ readU32BE ((writeKept keep McaWriter.openW es).finalize).file (i * 4) / 256) := by
  obtain ⟨hw', hmono, hpre, hframe⟩ := writeKept_main keep es McaWriter.openW WriterInv_openW
  have hlen8 : 8192 ≤ (writeKept keep McaWriter.openW es).file.length := by
    rw [hw'.1]; exact hw'.2.1
  have hflen := finalize_file_length (writeKept keep McaWriter.openW es) hlen8
  refine ⟨rfl, rfl, ?_, ?_, ?_⟩
  · rw [hflen, hw'.1]
    exact hw'.2.2.1
  · rw [hflen]; exact hlen8
  · intro i hi hne
    rw [slotNonEmpty_finalize _ hw' i hi] at hne
    have hoff : (writeKept keep McaWriter.openW es).offsets.getD i 0 ≠ 0 := by
      intro h
      rw [h] at hne
      exact hne.1 (by norm_num)
    obtain ⟨start, hs1, hs2, hs3, hs4⟩ := hw'.2.2.2.2.2.2.2.2 i hoff
    have hstartlt : start < 4294967296 := by omega
    have hmod : start % 4294967296 = start := Nat.mod_eq_of_lt hstartlt
    have hword := readU32BE_finalize _ hw' i hi
    have hszlt : (writeKept keep McaWriter.openW es).sizes.getD i 0 / 4096 % 256 < 256 :=
      Nat.mod_lt _ (by norm_num)
    constructor
    · rw [readLocOff, hword, locWord, hs1, hmod]
      omega
    · rw [hword, locWord, hs1, hmod]
      omega

/-! ## C1: verbatim preservation and slot subset -/

/-- C1.  For every region file emitted by the per-region loop, the set of
non-empty output slots is a subset of the non-empty input slots, and for
every kept entry with readable serialized bytes the bytes written to the
output at the slot's recorded offset equal the `4 + L` bytes read from
the input region at the slot's input offset: the serialized entry is
copied verbatim.  (The bound keeps the `u32` offset truncation
inactive.) -/
theorem claim_C1 (inp : List Nat) (rx rz : Int) (keep : McaEntry → Bool)
    (es : List McaEntry) (he : McaReader.entries inp rx rz = some es)
    (hbound : (writeKept keep McaWriter.openW es).data_offset ≤ 4294967296) :
    (∀ i, i < 1024 →
      slotNonEmpty ((writeKept keep McaWriter.openW es).finalize).file i →
      slotNonEmpty inp i) ∧
    (∀ e ∈ es, keep e = true → ∀ sb, e.serialized_bytes = some sb →
      sb = (inp.drop (readLocOff inp e.index)).take
        (4 + readU32BE inp (readLocOff inp e.index)) ∧
      (((writeKept keep McaWriter.openW es).finalize).file.drop
        (readLocOff ((writeKept keep McaWriter.openW es).finalize).file e.index)).take
        sb.length = sb) := by
  obtain ⟨hlen8, hmem, hpw⟩ := entries_spec inp rx rz es he
  obtain ⟨hw', hmono, hpre, hframe⟩ := writeKept_main keep es McaWriter.openW WriterInv_openW
  constructor
  · intro i hi hne
    rw [slotNonEmpty_finalize _ hw' i hi] at hne
    have hoff : (writeKept keep McaWriter.openW es).offsets.getD i 0 ≠ 0 := by
      intro h
      rw [h] at hne
      exact hne.1 (by norm_num)
    have hchanged : (writeKept keep McaWriter.openW es).offsets.getD i 0 ≠
        McaWriter.openW.offsets.getD i 0 ∨
        (writeKept keep McaWriter.openW es).sizes.getD i 0 ≠
        McaWriter.openW.sizes.getD i 0 := by
      left
      rw [openW_offsets_getD]
      exact hoff
    obtain ⟨e, hemem, heidx, _, _⟩ := hframe i hchanged
    obtain ⟨_, _, _, hsne⟩ := hmem e hemem
    rw [heidx] at hsne
    exact hsne
  · intro e hmem2 hk sb hsb
    obtain ⟨hidx, hdata, hstart, hsne⟩ := hmem e hmem2
    constructor
    · have h := serialized_of_entry e sb hsb
      rw [hdata, hstart] at h
      exact h
    · obtain ⟨start, hs1, hs2, hs3, hs4, hs5, hs6, hs7⟩ :=
        writeKept_found keep es McaWriter.openW WriterInv_openW hpw e hmem2 hk hidx sb hsb
      have hsb4 := serialized_length_ge e sb hsb
      have hstartlt : start < 4294967296 := by omega
      have hmod : start % 4294967296 = start := Nat.mod_eq_of_lt hstartlt
      have hword := readU32BE_finalize _ hw' e.index hidx
      have hloc : readLocOff ((writeKept keep McaWriter.openW es).finalize).file e.index
          = start := by
        rw [readLocOff, hword, locWord, hs4, hmod]
        have hszlt : (writeKept keep McaWriter.openW es).sizes.getD e.index 0 / 4096 % 256
            < 256 := Nat.mod_lt _ (by norm_num)
        omega
      rw [hloc]
      rw [finalize_drop _ (by rw [hw'.1]; exact hw'.2.1) start hs3]
      exact hs7

/-! ## C2: header consistency after finalize -/

/-- C2.  After `finalize`, for every appended slot the 32-bit location
word stored in the output header equals
`(offset/4096) << 8 | ((size/4096) & 0xFF)`: its upper 24 bits times 4096
equal the byte offset where the slot's data begins in the output file
(witnessed by the verbatim bytes at that offset), and its low 8 bits are
the sector count truncated to 8 bits — equal to the padded byte size
divided by 4096 whenever that count fits in 8 bits.  (The bound keeps
the `u32` offset truncation inactive.) -/
theorem claim_C2 (inp : List Nat) (rx rz : Int) (keep : McaEntry → Bool)
    (es : List McaEntry) (he : McaReader.entries inp rx rz = some es)
    (hbound : (writeKept keep McaWriter.openW es).data_offset ≤ 4294967296) :
    ∀ e ∈ es, keep e = true → ∀ sb, e.serialized_bytes = some sb →
      ∃ start,
        ((((writeKept keep McaWriter.openW es).finalize).file.drop start).take
          sb.length = sb) ∧
        readU32BE ((writeKept keep McaWriter.openW es).finalize).file (e.index * 4) =
          start / 4096 * 256 + (sb.length + padOf sb.length) / 4096 % 256 ∧
        readU32BE ((writeKept keep McaWriter.openW es).finalize).file (e.index * 4)
          / 256 * 4096 = start ∧
        readU32BE ((writeKept keep McaWriter.openW es).finalize).file (e.index * 4)
          % 256 = (sb.length + padOf sb.length) / 4096 % 256 ∧
        ((sb.length + padOf sb.length) / 4096 < 256 →
          readU32BE ((writeKept keep McaWriter.openW es).finalize).file (e.index * 4)
            % 256 * 4096 = sb.length + padOf sb.length) := by
  obtain ⟨hlen8, hmem, hpw⟩ := entries_spec inp rx rz es he
  obtain ⟨hw', hmono, hpre, hframe⟩ := writeKept_main keep es McaWriter.openW WriterInv_openW
  intro e hmem2 hk sb hsb
  obtain ⟨hidx, hdata, hstart, hsne⟩ := hmem e hmem2
  obtain ⟨start, hs1, hs2, hs3, hs4, hs5, hs6, hs7⟩ :=
    writeKept_found keep es McaWriter.openW WriterInv_openW hpw e hmem2 hk hidx sb hsb
  have hsb4 := serialized_length_ge e sb hsb
  have hstartlt : start < 4294967296 := by omega
  have hmodstart : start % 4294967296 = start := Nat.mod_eq_of_lt hstartlt
  have hsizelt : sb.length + padOf sb.length < 4294967296 := by omega
  have hmodsize : (sb.length + padOf sb.length) % 4294967296 =
      sb.length + padOf sb.length := Nat.mod_eq_of_lt hsizelt
  have hword := readU32BE_finalize _ hw' e.index hidx
  have hpad4 : (sb.length + padOf sb.length) % 4096 = 0 := padOf_add_mod sb.length
  refine ⟨start, ?_, ?_, ?_, ?_, ?_⟩
  · rw [finalize_drop _ (by rw [hw'.1]; exact hw'.2.1) start hs3]
    exact hs7
  · rw [hword, locWord, hs4, hs5, hmodstart, hmodsize]
  · rw [hword, locWord, hs4, hs5, hmodstart, hmodsize]
    have : (sb.length + padOf sb.length) / 4096 % 256 < 256 := Nat.mod_lt _ (by norm_num)
    omega
  · rw [hword, locWord, hs4, hs5, hmodstart, hmodsize]
    have : (sb.length + padOf sb.length) / 4096 % 256 < 256 := Nat.mod_lt _ (by norm_num)
    omega
  · intro hfit
    rw [hword, locWord, hs4, hs5, hmodstart, hmodsize]
    have : (sb.length + padOf sb.length) / 4096 % 256 < 256 := Nat.mod_lt _ (by norm_num)
    omega

/-! ## A concrete one-slot region file used by the witnesses -/

/-- An 8198-byte region file: slot 0's location word is `0x00000201`
(sector 2, one sector), all other header words are zero, and the data at
byte 8192 is a raw chunk slot `[0,0,0,2, 3, 7]` (length 2, method 3,
payload byte 7). -/
def inpW : List Nat := [0, 0, 2, 1] ++ (List.replicate 8188 0 ++ [0, 0, 0, 2, 3, 7])

def entW : McaEntry := ⟨inpW, 8192, 4096, 0, 0, 0, 0⟩

lemma inpW_length : inpW.length = 8198 := by
  rw [inpW]
  simp only [List.length_append, List.length_cons, List.length_nil,
    List.length_replicate]

lemma inpW_getD_zero (k : Nat) (h4 : 4 ≤ k) (h : k < 8192) : inpW.getD k 0 = 0 := by
  rw [inpW]
  rw [List.getD_append_right _ _ _ _
    (by simp only [List.length_cons, List.length_nil]; omega)]
  rw [List.getD_append _ _ _ _
    (by simp only [List.length_cons, List.length_nil, List.length_replicate]; omega)]
  simp only [List.length_cons, List.length_nil]
  exact getD_replicate_lt (by omega)

lemma inpW_getD_data (k : Nat) :
    inpW.getD (8192 + k) 0 = [0, 0, 0, 2, 3, 7].getD k 0 := by
  rw [inpW]
  rw [List.getD_append_right _ _ _ _
    (by simp only [List.length_cons, List.length_nil]; omega)]
  rw [List.getD_append_right _ _ _ _
    (by simp only [List.length_cons, List.length_nil, List.length_replicate]; omega)]
  simp only [List.length_cons, List.length_nil, List.length_replicate]
  rw [show 8192 + k - 4 - 8188 = k from by omega]

lemma inpW_word0 : readU32BE inpW 0 = 513 := by decide

lemma inpW_wordi (i : Nat) (h1 : 1 ≤ i) (hi : i < 1024) :
    readU32BE inpW (i * 4) = 0 := by
  apply readU32BE_of_zero_region <;> exact inpW_getD_zero _ (by omega) (by omega)

lemma inpW_timestamp0 : readTimestamp inpW 0 = 0 := by
  rw [readTimestamp]
  apply readU32BE_of_zero_region <;> exact inpW_getD_zero _ (by omega) (by omega)

/-- Only slot 0 survives the filter when every other slot's word is 0. -/
lemma filterMap_range_single (f : Nat → Option McaEntry) :
    ∀ n : Nat, 1 ≤ n → (∀ i, 1 ≤ i → i < n → f i = none) →
      (List.range n).filterMap f = (f 0).toList
  | 0, hn, _ => absurd hn (by norm_num)
  | 1, _, _ => by
    rw [show List.range 1 = [0] from rfl]
    cases hf : f 0 <;> simp [List.filterMap_cons, hf]
  | n + 2, _, h0 => by
    rw [List.range_succ, List.filterMap_append]
    rw [filterMap_range_single f (n + 1) (by omega)
      (fun i hi1 hi2 => h0 i hi1 (by omega))]
    have hn2 := h0 (n + 1) (by omega) (by omega)
    simp [List.filterMap_cons, hn2]

set_option maxRecDepth 4096 in
lemma entries_inpW : McaReader.entries inpW 0 0 = some [entW] := by
  rw [McaReader.entries, if_pos (by rw [inpW_length]; norm_num)]
  refine congrArg some ?_
  rw [filterMap_range_single _ 1024 (by norm_num) ?_]
  · have hoff : readLocOff inpW 0 = 8192 := by
      rw [readLocOff, Nat.zero_mul, inpW_word0]
    have hsize : readLocSize inpW 0 = 4096 := by
      rw [readLocSize, Nat.zero_mul, inpW_word0]
    simp only [hoff, hsize, inpW_timestamp0]
    rw [if_neg (by norm_num)]
    rfl
  · intro i h1 hi
    have hoff : readLocOff inpW i = 0 := by
      rw [readLocOff, inpW_wordi i h1 hi]
    rw [hoff]
    rw [if_pos (Or.inl rfl)]

lemma inpW_drop : inpW.drop 8192 = [0, 0, 0, 2, 3, 7] := by
  rw [inpW]
  rw [drop_append_ge _ _ _ (by simp only [List.length_cons, List.length_nil]; omega)]
  simp only [List.length_cons, List.length_nil]
  rw [drop_append_ge _ _ _ (by simp only [List.length_replicate]; omega)]
  simp only [List.length_replicate]
  rw [show 8192 - 4 - 8188 = 0 from by omega]
  rfl

lemma read_header_entW : entW.read_header = some (2, CompressionMethod.raw, none) := by
  have hm : entW.data.getD (entW.start + 4) 0 = 3 := by
    show inpW.getD (8192 + 4) 0 = 3
    rw [inpW_getD_data 4]
    rfl
  have hlen2 : readU32BE entW.data entW.start = 2 := by
    show readU32BE inpW 8192 = 2
    rw [readU32BE]
    have g0 : inpW.getD 8192 0 = 0 := by
      have h := inpW_getD_data 0
      rw [Nat.add_zero] at h
      rw [h]
      rfl
    rw [g0, inpW_getD_data 1, inpW_getD_data 2, inpW_getD_data 3]
    rfl
  have hcond : entW.start + 5 ≤ entW.data.length := by
    show 8192 + 5 ≤ inpW.length
    rw [inpW_length]
    norm_num
  rw [McaEntry.read_header, if_pos hcond, hlen2, hm]
  decide

lemma serialized_entW : entW.serialized_bytes = some [0, 0, 0, 2, 3, 7] := by
  rw [McaEntry.serialized_bytes, read_header_entW]
  show some ((inpW.drop 8192).take (4 + 2)) = some [0, 0, 0, 2, 3, 7]
  rw [inpW_drop]
  rfl

lemma writeKept_entW : writeKept (fun _ => true) McaWriter.openW [entW] =
    writeStateAfter McaWriter.openW entW [0, 0, 0, 2, 3, 7] := by
  rw [writeKept, List.foldl_cons, List.foldl_nil]
  rw [keepStep, if_pos rfl,
    write_entry_eq McaWriter.openW entW _ serialized_entW WriterInv_openW.1]
  rfl

lemma bound_entW :
    (writeKept (fun _ => true) McaWriter.openW [entW]).data_offset ≤ 4294967296 := by
  rw [writeKept_entW]
  show 8192 + 6 + padOf 6 ≤ 4294967296
  decide

/-- Witness for C3 on the concrete one-slot region. -/
theorem claim_C3_witness :
    ((writeKept (fun _ => true) McaWriter.openW [entW]).finalize).file.length % 4096 = 0 ∧
    8192 ≤ ((writeKept (fun _ => true) McaWriter.openW [entW]).finalize).file.length :=
  ⟨(claim_C3 [entW] (fun _ => true) bound_entW).2.2.1,
   (claim_C3 [entW] (fun _ => true) bound_entW).2.2.2.1⟩

/-- Witness for C1 on the concrete one-slot region: the kept slot's bytes
in the output equal the input slot bytes. -/
theorem claim_C1_witness :
    ([0, 0, 0, 2, 3, 7] : List Nat) =
      (inpW.drop (readLocOff inpW entW.index)).take
        (4 + readU32BE inpW (readLocOff inpW entW.index)) ∧
    (((writeKept (fun _ => true) McaWriter.openW [entW]).finalize).file.drop
      (readLocOff ((writeKept (fun _ => true) McaWriter.openW [entW]).finalize).file
        entW.index)).take 6 = [0, 0, 0, 2, 3, 7] := by
  have h := (claim_C1 inpW 0 0 (fun _ => true) [entW] entries_inpW bound_entW).2
    entW (List.mem_cons_self entW []) rfl [0, 0, 0, 2, 3, 7] serialized_entW
  exact ⟨h.1, h.2⟩

/-- Witness for C2 on the concrete one-slot region. -/
theorem claim_C2_witness :
    ∃ start,
      ((((writeKept (fun _ => true) McaWriter.openW [entW]).finalize).file.drop
        start).take 6 = [0, 0, 0, 2, 3, 7]) ∧
      readU32BE ((writeKept (fun _ => true) McaWriter.openW [entW]).finalize).file
        (entW.index * 4) = start / 4096 * 256 + (6 + padOf 6) / 4096 % 256 ∧
      readU32BE ((writeKept (fun _ => true) McaWriter.openW [entW]).finalize).file
        (entW.index * 4) / 256 * 4096 = start ∧
      readU32BE ((writeKept (fun _ => true) McaWriter.openW [entW]).finalize).file
        (entW.index * 4) % 256 = (6 + padOf 6) / 4096 % 256 ∧
      ((6 + padOf 6) / 4096 < 256 →
        readU32BE ((writeKept (fun _ => true) McaWriter.openW [entW]).finalize).file
          (entW.index * 4) % 256 * 4096 = 6 + padOf 6) :=
  claim_C2 inpW 0 0 (fun _ => true) [entW] entries_inpW bound_entW
    entW (List.mem_cons_self entW []) rfl [0, 0, 0, 2, 3, 7] serialized_entW

/-! ## C7: mirrored entities/poi selection -/

/-- The entity entries that the mirror loop appends: one per kept region
entry whose slot index is populated in the mirrored file. -/
def entityKeepList (ein : List Nat) (rx rz : Int) (keep : McaEntry → Bool)
    (es : List McaEntry) : List McaEntry :=
  es.filterMap (fun e =>
    if keep e then
      match McaReader.get ein rx rz e.index with
      | GetResult.ok (some ee) => some ee
      | _ => none
    else none)

/-- The paired mirror fold is the product of two independent writer
folds: the region fold over `es` and an all-kept fold over the derived
entity entries. -/
lemma mirror_fold_eq (ein : List Nat) (rx rz : Int) (keep : McaEntry → Bool) :
    ∀ (es : List McaEntry) (a b : McaWriter),
      es.foldl (mirrorStep ein rx rz keep) (a, b) =
        (writeKept keep a es,
         writeKept (fun _ => true) b (entityKeepList ein rx rz keep es))
  | [], a, b => by
    rw [List.foldl_nil, entityKeepList]
    simp [writeKept]
  | e :: es, a, b => by
    cases hk : keep e with
    | false =>
      have hms : mirrorStep ein rx rz keep (a, b) e = (a, b) := by
        rw [mirrorStep, if_neg (by simp [hk])]
      have hks : keepStep keep a e = a := by
        rw [keepStep, if_neg (by simp [hk])]
      have hel : entityKeepList ein rx rz keep (e :: es) =
          entityKeepList ein rx rz keep es := by
        rw [entityKeepList, entityKeepList, List.filterMap_cons]
        simp [hk]
      rw [List.foldl_cons, hms, writeKept_cons, hks, hel]
      exact mirror_fold_eq ein rx rz keep es a b
    | true =>
      have hks : keepStep keep a e = (a.write_entry e).getD a := by
        rw [keepStep, if_pos hk]
      cases hg : McaReader.get ein rx rz e.index with
      | ok oe =>
        cases oe with
        | none =>
          have hms : mirrorStep ein rx rz keep (a, b) e =
              ((a.write_entry e).getD a, b) := by
            rw [mirrorStep, if_pos hk, hg]
          have hel : entityKeepList ein rx rz keep (e :: es) =
              entityKeepList ein rx rz keep es := by
            rw [entityKeepList, entityKeepList, List.filterMap_cons]
            simp [hk, hg]
          rw [List.foldl_cons, hms, writeKept_cons, hks, hel]
          exact mirror_fold_eq ein rx rz keep es _ _
        | some ee =>
          have hms : mirrorStep ein rx rz keep (a, b) e =
              ((a.write_entry e).getD a, (b.write_entry ee).getD b) := by
            rw [mirrorStep, if_pos hk, hg]
          have hel : entityKeepList ein rx rz keep (e :: es) =
              ee :: entityKeepList ein rx rz keep es := by
            rw [entityKeepList, entityKeepList, List.filterMap_cons]
            simp [hk, hg]
          have hkse : keepStep (fun _ => true) b ee = (b.write_entry ee).getD b := by
            rw [keepStep, if_pos rfl]
          rw [List.foldl_cons, hms, writeKept_cons, hks, hel, writeKept_cons, hkse]
          exact mirror_fold_eq ein rx rz keep es _ _
      | ioErr =>
        have hms : mirrorStep ein rx rz keep (a, b) e =
            ((a.write_entry e).getD a, b) := by
          rw [mirrorStep, if_pos hk, hg]
        have hel : entityKeepList ein rx rz keep (e :: es) =
            entityKeepList ein rx rz keep es := by
          rw [entityKeepList, entityKeepList, List.filterMap_cons]
          simp [hk, hg]
        rw [List.foldl_cons, hms, writeKept_cons, hks, hel]
        exact mirror_fold_eq ein rx rz keep es _ _
      | panics =>
        have hms : mirrorStep ein rx rz keep (a, b) e =
            ((a.write_entry e).getD a, b) := by
          rw [mirrorStep, if_pos hk, hg]
        have hel : entityKeepList ein rx rz keep (e :: es) =
            entityKeepList ein rx rz keep es := by
          rw [entityKeepList, entityKeepList, List.filterMap_cons]
          simp [hk, hg]
        rw [List.foldl_cons, hms, writeKept_cons, hks, hel]
        exact mirror_fold_eq ein rx rz keep es _ _

/-- Fields of a `get` success: the produced entry carries the queried
index, the mirrored file's bytes and the decoded offset, and the slot is
populated. -/
lemma get_ok_some_spec (ein : List Nat) (rx rz : Int) (i : Nat) (ee : McaEntry)
    (h : McaReader.get ein rx rz i = GetResult.ok (some ee)) :
    8192 ≤ ein.length ∧ i < 1024 ∧ ee.index = i ∧ ee.data = ein ∧
    ee.start = readLocOff ein i ∧ slotNonEmpty ein i := by
  rw [McaReader.get] at h
  by_cases hl : 8192 ≤ ein.length
  · rw [if_pos hl] at h
    by_cases hi : i < 1024
    · rw [if_pos hi] at h
      by_cases hc : readLocOff ein i = 0 ∨ readLocSize ein i = 0
      · rw [if_pos hc] at h
        injection h with h
        exact Option.noConfusion h
      · rw [if_neg hc] at h
        injection h with h
        injection h with h
        push_neg at hc
        rw [← h]
        exact ⟨hl, hi, rfl, rfl, rfl, hc⟩
    · rw [if_neg hi] at h
      exact GetResult.noConfusion h
  · rw [if_neg hl] at h
    exact GetResult.noConfusion h

/-- A populated slot of a parsed mirrored file yields a `get` success. -/
lemma get_ok_some_of_nonEmpty (ein : List Nat) (rx rz : Int) (i : Nat)
    (hl : 8192 ≤ ein.length) (hi : i < 1024) (hne : slotNonEmpty ein i) :
    McaReader.get ein rx rz i =
      GetResult.ok (some ⟨ein, readLocOff ein i, readLocSize ein i, i,
        readTimestamp ein i, rx, rz⟩) := by
  rw [McaReader.get, if_pos hl, if_pos hi]
  rw [if_neg (by push_neg; exact hne)]

lemma pairwise_filterMap_preserve (g : McaEntry → Option McaEntry)
    (hg : ∀ e ee, g e = some ee → ee.index = e.index) :
    ∀ l : List McaEntry, l.Pairwise (fun a b => a.index ≠ b.index) →
      (l.filterMap g).Pairwise (fun a b => a.index ≠ b.index)
  | [], _ => by simp
  | a :: l, hp => by
    obtain ⟨ha, hl⟩ := List.pairwise_cons.mp hp
    rw [List.filterMap_cons]
    cases hfa : g a with
    | none => exact pairwise_filterMap_preserve g hg l hl
    | some e =>
      rw [List.pairwise_cons]
      refine ⟨?_, pairwise_filterMap_preserve g hg l hl⟩
      intro e2 he2
      obtain ⟨b, hb, hgb⟩ := List.mem_filterMap.mp he2
      rw [hg a e hfa, hg b e2 hgb]
      exact ha b hb

/-- C7 (amended).  For a mirrored family processed with the region file,
under the provisos that (a) every kept region entry's serialized bytes
are readable and occupy fewer than 256 sectors (padded size under 1 MiB,
so the 8-bit sector count in the location word is non-zero), (b) every
entry read back from the source mirrored file is likewise readable and
under 256 sectors, and (c) both outputs stay below `2^32` bytes (no
`u32` offset truncation): an output entities/poi slot `i` is non-empty
iff the region's slot `i` was kept (some kept region entry has index
`i`) and the source mirrored file contains a non-empty slot `i`; and the
non-empty mirrored output slots are a subset of the non-empty region
output slots.  Without (a) the subset fails (see the counterexample);
without (b) the iff fails. -/
theorem claim_C7_amended (inp ein : List Nat) (rx rz : Int) (keep : McaEntry → Bool)
    (es : List McaEntry) (he : McaReader.entries inp rx rz = some es)
    (hlen2 : 8192 ≤ ein.length)
    (hkeepread : ∀ e ∈ es, keep e = true →
      ∃ sb, e.serialized_bytes = some sb ∧ sb.length + padOf sb.length < 1048576)
    (hentread : ∀ i ee, McaReader.get ein rx rz i = GetResult.ok (some ee) →
      ∃ sb, ee.serialized_bytes = some sb ∧ sb.length + padOf sb.length < 1048576)
    (hb1 : (writeKept keep McaWriter.openW es).data_offset ≤ 4294967296)
    (hb2 : (writeKept (fun _ => true) McaWriter.openW
      (entityKeepList ein rx rz keep es)).data_offset ≤ 4294967296) :
    ∀ p, processMirror inp ein rx rz keep = some p →
      ∀ i, i < 1024 →
        (slotNonEmpty p.2.file i ↔
          ((∃ e ∈ es, e.index = i ∧ keep e = true) ∧ slotNonEmpty ein i)) ∧
        (slotNonEmpty p.2.file i → slotNonEmpty p.1.file i) := by
  have hpm : processMirror inp ein rx rz keep = some
      ((writeKept keep McaWriter.openW es).finalize,
       (writeKept (fun _ => true) McaWriter.openW
         (entityKeepList ein rx rz keep es)).finalize) := by
    rw [processMirror, he]
    refine congrArg some ?_
    show ((List.foldl (mirrorStep ein rx rz keep)
        (McaWriter.openW, McaWriter.openW) es).1.finalize,
      (List.foldl (mirrorStep ein rx rz keep)
        (McaWriter.openW, McaWriter.openW) es).2.finalize) = _
    rw [mirror_fold_eq]
  obtain ⟨hlen1, hmem, hpw⟩ := entries_spec inp rx rz es he
  have hg : ∀ e ee, (if keep e then
        match McaReader.get ein rx rz e.index with
        | GetResult.ok (some x) => some x
        | _ => none
      else none) = some ee → ee.index = e.index := by
    intro e ee h
    by_cases hk : keep e = true
    · rw [if_pos hk] at h
      cases hgg : McaReader.get ein rx rz e.index with
      | ok oe =>
        cases oe with
        | some x =>
          rw [hgg] at h
          injection h with h
          rw [← h, (get_ok_some_spec ein rx rz e.index x hgg).2.2.1]
        | none => rw [hgg] at h; exact Option.noConfusion h
      | ioErr => rw [hgg] at h; exact Option.noConfusion h
      | panics => rw [hgg] at h; exact Option.noConfusion h
    · rw [if_neg hk] at h; exact Option.noConfusion h
  have hpwE := pairwise_filterMap_preserve _ hg es hpw
  have hmemE : ∀ ee ∈ entityKeepList ein rx rz keep es, ∃ e ∈ es, keep e = true ∧
      McaReader.get ein rx rz e.index = GetResult.ok (some ee) := by
    intro ee hm
    obtain ⟨e, hees, hge⟩ := List.mem_filterMap.mp hm
    by_cases hk : keep e = true
    · rw [if_pos hk] at hge
      refine ⟨e, hees, hk, ?_⟩
      cases hgg : McaReader.get ein rx rz e.index with
      | ok oe =>
        cases oe with
        | some x =>
          rw [hgg] at hge
          injection hge with hge
          rw [hge]
        | none => rw [hgg] at hge; exact Option.noConfusion hge
      | ioErr => rw [hgg] at hge; exact Option.noConfusion hge
      | panics => rw [hgg] at hge; exact Option.noConfusion hge
    · rw [if_neg hk] at hge; exact Option.noConfusion hge
  have hmemE2 : ∀ e ∈ es, keep e = true → ∀ ee,
      McaReader.get ein rx rz e.index = GetResult.ok (some ee) →
      ee ∈ entityKeepList ein rx rz keep es := by
    intro e hees hk ee hgg
    apply List.mem_filterMap.mpr
    exact ⟨e, hees, by rw [if_pos hk, hgg]⟩
  obtain ⟨hwE, _, _, hframeE⟩ :=
    writeKept_main (fun _ => true) (entityKeepList ein rx rz keep es)
      McaWriter.openW WriterInv_openW
  obtain ⟨hwC, _, _, hframeC⟩ := writeKept_main keep es McaWriter.openW WriterInv_openW
  intro p hp i hi
  rw [hpm] at hp
  injection hp with hp
  subst hp
  have hfwd : slotNonEmpty ((writeKept (fun _ => true) McaWriter.openW
      (entityKeepList ein rx rz keep es)).finalize).file i →
      ((∃ e ∈ es, e.index = i ∧ keep e = true) ∧ slotNonEmpty ein i) := by
    intro hne
    rw [slotNonEmpty_finalize _ hwE i hi] at hne
    have hoff : (writeKept (fun _ => true) McaWriter.openW
        (entityKeepList ein rx rz keep es)).offsets.getD i 0 ≠ 0 := by
      intro h
      rw [h] at hne
      exact hne.1 (by norm_num)
    have hchanged := hframeE i (by
      left
      rw [openW_offsets_getD]
      exact hoff)
    obtain ⟨ee, heem, heidx, _, _⟩ := hchanged
    obtain ⟨e, hees, hk, hgg⟩ := hmemE ee heem
    obtain ⟨_, _, hei, _, _, hsne⟩ := get_ok_some_spec ein rx rz e.index ee hgg
    rw [heidx] at hei
    constructor
    · exact ⟨e, hees, hei.symm, hk⟩
    · rw [← hei] at hsne
      exact hsne
  refine ⟨⟨hfwd, ?_⟩, ?_⟩
  · rintro ⟨⟨e, hees, heidx, hk⟩, hsne⟩
    have hgg := get_ok_some_of_nonEmpty ein rx rz i hlen2 hi hsne
    have hgg2 : McaReader.get ein rx rz e.index = GetResult.ok (some
        ⟨ein, readLocOff ein i, readLocSize ein i, i, readTimestamp ein i, rx, rz⟩) := by
      rw [heidx]
      exact hgg
    have hmm := hmemE2 e hees hk _ hgg2
    obtain ⟨sb, hsb, hsmall⟩ := hentread i _ hgg
    obtain ⟨start, hs1, hs2, hs3, hs4, hs5, hs6, hs7⟩ :=
      writeKept_found (fun _ => true) (entityKeepList ein rx rz keep es)
        McaWriter.openW WriterInv_openW hpwE _ hmm rfl hi sb hsb
    have hsb4 := serialized_length_ge _ sb hsb
    have hstartlt : start < 4294967296 := by omega
    have hpadd := padOf_add_mod sb.length
    rw [slotNonEmpty_finalize _ hwE i hi]
    constructor
    · rw [hs4, Nat.mod_eq_of_lt hstartlt]
      omega
    · rw [hs5, Nat.mod_eq_of_lt (by omega)]
      omega
  · intro hne
    obtain ⟨⟨e, hees, heidx, hk⟩, _⟩ := hfwd hne
    obtain ⟨sb, hsb, hsmall⟩ := hkeepread e hees hk
    obtain ⟨start, hs1, hs2, hs3, hs4, hs5, hs6, hs7⟩ :=
      writeKept_found keep es McaWriter.openW WriterInv_openW hpw e hees hk
        (hmem e hees).1 sb hsb
    have hsb4 := serialized_length_ge _ sb hsb
    have hstartlt : start < 4294967296 := by omega
    have hpadd := padOf_add_mod sb.length
    rw [slotNonEmpty_finalize _ hwC i hi]
    rw [← heidx]
    constructor
    · rw [hs4, Nat.mod_eq_of_lt hstartlt]
      omega
    · rw [hs5, Nat.mod_eq_of_lt (by omega)]
      omega

/-- `get` on the concrete one-slot region succeeds at slot 0. -/
lemma get_inpW_0 : McaReader.get inpW 0 0 0 = GetResult.ok (some entW) := by
  rw [McaReader.get, if_pos (by rw [inpW_length]; norm_num), if_pos (by norm_num)]
  have hoff : readLocOff inpW 0 = 8192 := by
    rw [readLocOff, Nat.zero_mul, inpW_word0]
  have hsize : readLocSize inpW 0 = 4096 := by
    rw [readLocSize, Nat.zero_mul, inpW_word0]
  simp only [hoff, hsize, inpW_timestamp0]
  rw [if_neg (by norm_num)]
  rfl

/-- Any `get` success on the concrete one-slot region yields its single
entry. -/
lemma get_inpW_char (i : Nat) (ee : McaEntry)
    (h : McaReader.get inpW 0 0 i = GetResult.ok (some ee)) : ee = entW := by
  obtain ⟨_, hi, hidx, hdata, hstart, hne⟩ := get_ok_some_spec inpW 0 0 i ee h
  have hzero : i = 0 := by
    by_contra hc
    have hw := inpW_wordi i (by omega) hi
    have : readLocOff inpW i = 0 := by rw [readLocOff, hw]
    exact hne.1 this
  subst hzero
  rw [get_inpW_0] at h
  injection h with h
  injection h with h
  exact h.symm

/-- A region file identical to `inpW` except that the slot's method byte
is 9 — an unknown compression code, so the entry's header fails to
parse. -/
def inpBad : List Nat := [0, 0, 2, 1] ++ (List.replicate 8188 0 ++ [0, 0, 0, 2, 9, 7])

def entBad : McaEntry := ⟨inpBad, 8192, 4096, 0, 0, 0, 0⟩

lemma inpBad_length : inpBad.length = 8198 := by
  rw [inpBad]
  simp only [List.length_append, List.length_cons, List.length_nil,
    List.length_replicate]

lemma inpBad_getD_zero (k : Nat) (h4 : 4 ≤ k) (h : k < 8192) :
    inpBad.getD k 0 = 0 := by
  rw [inpBad]
  rw [List.getD_append_right _ _ _ _
    (by simp only [List.length_cons, List.length_nil]; omega)]
  rw [List.getD_append _ _ _ _
    (by simp only [List.length_cons, List.length_nil, List.length_replicate]; omega)]
  simp only [List.length_cons, List.length_nil]
  exact getD_replicate_lt (by omega)

lemma inpBad_getD_data (k : Nat) :
    inpBad.getD (8192 + k) 0 = [0, 0, 0, 2, 9, 7].getD k 0 := by
  rw [inpBad]
  rw [List.getD_append_right _ _ _ _
    (by simp only [List.length_cons, List.length_nil]; omega)]
  rw [List.getD_append_right _ _ _ _
    (by simp only [List.length_cons, List.length_nil, List.length_replicate]; omega)]
  simp only [List.length_cons, List.length_nil, List.length_replicate]
  rw [show 8192 + k - 4 - 8188 = k from by omega]

lemma inpBad_word0 : readU32BE inpBad 0 = 513 := by decide

lemma inpBad_wordi (i : Nat) (h1 : 1 ≤ i) (hi : i < 1024) :
    readU32BE inpBad (i * 4) = 0 := by
  apply readU32BE_of_zero_region <;> exact inpBad_getD_zero _ (by omega) (by omega)

lemma inpBad_timestamp0 : readTimestamp inpBad 0 = 0 := by
  rw [readTimestamp]
  apply readU32BE_of_zero_region <;> exact inpBad_getD_zero _ (by omega) (by omega)

set_option maxRecDepth 4096 in
lemma entries_inpBad : McaReader.entries inpBad 0 0 = some [entBad] := by
  rw [McaReader.entries, if_pos (by rw [inpBad_length]; norm_num)]
  refine congrArg some ?_
  rw [filterMap_range_single _ 1024 (by norm_num) ?_]
  · have hoff : readLocOff inpBad 0 = 8192 := by
      rw [readLocOff, Nat.zero_mul, inpBad_word0]
    have hsize : readLocSize inpBad 0 = 4096 := by
      rw [readLocSize, Nat.zero_mul, inpBad_word0]
    simp only [hoff, hsize, inpBad_timestamp0]
    rw [if_neg (by norm_num)]
    rfl
  · intro i h1 hi
    have hoff : readLocOff inpBad i = 0 := by
      rw [readLocOff, inpBad_wordi i h1 hi]
    rw [hoff]
    rw [if_pos (Or.inl rfl)]

/-- The corrupt entry's header does not parse (method byte 9), so its
serialized bytes are unreadable and the region write is skipped. -/
lemma serialized_entBad : entBad.serialized_bytes = none := by
  rw [McaEntry.serialized_bytes]
  suffices h : entBad.read_header = none by rw [h]
  rw [McaEntry.read_header]
  rw [if_pos (show entBad.start + 5 ≤ entBad.data.length from by
    show 8192 + 5 ≤ inpBad.length
    rw [inpBad_length]
    norm_num)]
  have hm : entBad.data.getD (entBad.start + 4) 0 = 9 := by
    show inpBad.getD (8192 + 4) 0 = 9
    rw [inpBad_getD_data 4]
    rfl
  rw [hm]
  rfl

/-- The predicate chain of the counterexample: a force-loaded coordinate
list containing the chunk (the list predicate never reads the payload),
as `run` builds it. -/
def keepCex : McaEntry → Bool := fun e => evalChain [ListPattern.matches [(0, 0)]] e

lemma keepCex_entBad : keepCex entBad = true := by decide

def cexPair : McaWriter × McaWriter :=
  (McaWriter.openW.finalize,
   (writeKept (fun _ => true) McaWriter.openW [entW]).finalize)

lemma fstW (a b : McaWriter) : Prod.fst (a, b) = a := rfl

lemma sndW (a b : McaWriter) : Prod.snd (a, b) = b := rfl

lemma processMirror_cex : processMirror inpBad inpW 0 0 keepCex = some cexPair := by
  have h1 : writeKept keepCex McaWriter.openW [entBad] = McaWriter.openW := by
    rw [writeKept, List.foldl_cons, List.foldl_nil, keepStep, if_pos keepCex_entBad,
      McaWriter.write_entry, serialized_entBad]
    rfl
  have hstep : (if keepCex entBad = true then
      match McaReader.get inpW 0 0 entBad.index with
      | GetResult.ok (some x) => some x
      | _ => none else none) = some entW := by
    rw [if_pos keepCex_entBad, show entBad.index = 0 from rfl, get_inpW_0]
  have h2 : entityKeepList inpW 0 0 keepCex [entBad] = [entW] := by
    rw [entityKeepList]
    simp only [List.filterMap_cons, List.filterMap_nil, hstep]
  rw [processMirror, entries_inpBad]
  refine congrArg some ?_
  show ((List.foldl (mirrorStep inpW 0 0 keepCex)
      (McaWriter.openW, McaWriter.openW) [entBad]).1.finalize,
    (List.foldl (mirrorStep inpW 0 0 keepCex)
      (McaWriter.openW, McaWriter.openW) [entBad]).2.finalize) = _
  rw [mirror_fold_eq, h2, h1, fstW, sndW]
  rfl

/-- The mirrored output of the counterexample run keeps entities slot 0. -/
lemma cexSnd_nonEmpty :
    slotNonEmpty ((writeKept (fun _ => true) McaWriter.openW [entW]).finalize).file 0 := by
  obtain ⟨hw, _, _, _⟩ :=
    writeKept_main (fun _ => true) [entW] McaWriter.openW WriterInv_openW
  rw [slotNonEmpty_finalize _ hw 0 (by norm_num), writeKept_entW]
  constructor
  · have h : (writeStateAfter McaWriter.openW entW [0, 0, 0, 2, 3, 7]).offsets.getD 0 0
        = 8192 := by
      simp only [writeStateAfter]
      rw [show entW.index = 0 from rfl,
        show McaWriter.openW.offsets = List.replicate 1024 0 from rfl,
        show McaWriter.openW.data_offset % 4294967296 = 8192 from rfl,
        getD_set_self _ _ _ (by rw [List.length_replicate]; norm_num)]
    rw [h]
    norm_num
  · have h : (writeStateAfter McaWriter.openW entW [0, 0, 0, 2, 3, 7]).sizes.getD 0 0
        = 4096 := by
      simp only [writeStateAfter]
      rw [show entW.index = 0 from rfl,
        show McaWriter.openW.sizes = List.replicate 1024 0 from rfl,
        getD_set_self _ _ _ (by rw [List.length_replicate]; norm_num)]
      decide
    rw [h]
    norm_num

/-- The region output of the counterexample run leaves slot 0 empty: the
kept entry's header fails to parse, so the write is skipped. -/
lemma cexFst_empty : ¬ slotNonEmpty (McaWriter.openW.finalize).file 0 := by
  rw [slotNonEmpty_finalize _ WriterInv_openW 0 (by norm_num)]
  rintro ⟨h, _⟩
  rw [openW_offsets_getD] at h
  exact h (by norm_num)

/-- C7 counterexample.  A run on a region file whose single populated
entry is kept by the predicate chain but carries an unreadable header
(unknown method byte 9), with a mirrored entities file whose slot 0 is
readable: the region write fails and is skipped while the entities entry
is still mirrored, so the output entities file has a non-empty slot 0
although the output region file's slot 0 is empty — refuting the claimed
subset of non-empty entities slots within non-empty region slots (the
claimed iff's right side holds while the region slot is dropped). -/
theorem claim_C7_counterexample :
    ∃ p, processMirror inpBad inpW 0 0 keepCex = some p ∧
      slotNonEmpty (Prod.snd p).file 0 ∧ ¬ slotNonEmpty (Prod.fst p).file 0 := by
  refine ⟨cexPair, processMirror_cex, ?_, ?_⟩
  · have h : Prod.snd cexPair =
        (writeKept (fun _ => true) McaWriter.openW [entW]).finalize := by
      rw [show cexPair = (McaWriter.openW.finalize,
        (writeKept (fun _ => true) McaWriter.openW [entW]).finalize) from rfl, sndW]
    rw [h]
    exact cexSnd_nonEmpty
  · have h : Prod.fst cexPair = McaWriter.openW.finalize := by
      rw [show cexPair = (McaWriter.openW.finalize,
        (writeKept (fun _ => true) McaWriter.openW [entW]).finalize) from rfl, fstW]
    rw [h]
    exact cexFst_empty

lemma keepCex_entW : keepCex entW = true := by decide

lemma writeKept_keepCex : writeKept keepCex McaWriter.openW [entW] =
    writeStateAfter McaWriter.openW entW [0, 0, 0, 2, 3, 7] := by
  rw [writeKept, List.foldl_cons, List.foldl_nil]
  rw [keepStep, if_pos keepCex_entW,
    write_entry_eq McaWriter.openW entW _ serialized_entW WriterInv_openW.1]
  rfl

lemma bound_keepCex :
    (writeKept keepCex McaWriter.openW [entW]).data_offset ≤ 4294967296 := by
  rw [writeKept_keepCex]
  show 8192 + 6 + padOf 6 ≤ 4294967296
  decide

/-- The mirror run over the concrete one-slot region with itself as the
mirrored family: both writers append the single entry. -/
lemma processMirror_keepW : processMirror inpW inpW 0 0 keepCex = some
    ((writeKept keepCex McaWriter.openW [entW]).finalize,
     (writeKept (fun _ => true) McaWriter.openW [entW]).finalize) := by
  have hstep : (if keepCex entW = true then
      match McaReader.get inpW 0 0 entW.index with
      | GetResult.ok (some x) => some x
      | _ => none else none) = some entW := by
    rw [if_pos keepCex_entW, show entW.index = 0 from rfl, get_inpW_0]
  have h2 : entityKeepList inpW 0 0 keepCex [entW] = [entW] := by
    rw [entityKeepList]
    simp only [List.filterMap_cons, List.filterMap_nil, hstep]
  rw [processMirror, entries_inpW]
  refine congrArg some ?_
  show ((List.foldl (mirrorStep inpW 0 0 keepCex)
      (McaWriter.openW, McaWriter.openW) [entW]).1.finalize,
    (List.foldl (mirrorStep inpW 0 0 keepCex)
      (McaWriter.openW, McaWriter.openW) [entW]).2.finalize) = _
  rw [mirror_fold_eq, h2, fstW, sndW]

/-- Witness for the amended C7 on the concrete one-slot region mirrored
with itself: the entities output slot 0 is non-empty iff the region
entry was kept and the source slot 0 is non-empty, and it implies the
region output slot 0 is non-empty. -/
theorem claim_C7_amended_witness :
    (slotNonEmpty ((writeKept (fun _ => true) McaWriter.openW [entW]).finalize).file 0 ↔
      ((∃ e ∈ [entW], e.index = 0 ∧ keepCex e = true) ∧ slotNonEmpty inpW 0)) ∧
    (slotNonEmpty ((writeKept (fun _ => true) McaWriter.openW [entW]).finalize).file 0 →
      slotNonEmpty ((writeKept keepCex McaWriter.openW [entW]).finalize).file 0) := by
  have hkeepread : ∀ e ∈ [entW], keepCex e = true →
      ∃ sb, e.serialized_bytes = some sb ∧ sb.length + padOf sb.length < 1048576 := by
    intro e he _
    rw [List.mem_singleton.mp he]
    exact ⟨[0, 0, 0, 2, 3, 7], serialized_entW, by decide⟩
  have hentread : ∀ i ee, McaReader.get inpW 0 0 i = GetResult.ok (some ee) →
      ∃ sb, ee.serialized_bytes = some sb ∧ sb.length + padOf sb.length < 1048576 := by
    intro i ee h
    rw [get_inpW_char i ee h]
    exact ⟨[0, 0, 0, 2, 3, 7], serialized_entW, by decide⟩
  have hb2 : (writeKept (fun _ => true) McaWriter.openW
      (entityKeepList inpW 0 0 keepCex [entW])).data_offset ≤ 4294967296 := by
    have h2 : entityKeepList inpW 0 0 keepCex [entW] = [entW] := by
      rw [entityKeepList]
      simp only [List.filterMap_cons, List.filterMap_nil]
      rw [if_pos keepCex_entW, show entW.index = 0 from rfl, get_inpW_0]
    rw [h2]
    exact bound_entW
  have h := claim_C7_amended inpW inpW 0 0 keepCex [entW] entries_inpW
    (by rw [inpW_length]; norm_num) hkeepread hentread bound_keepCex hb2
    ((writeKept keepCex McaWriter.openW [entW]).finalize,
     (writeKept (fun _ => true) McaWriter.openW [entW]).finalize)
    processMirror_keepW 0 (by norm_num)
  rwa [sndW, fstW] at h
